import Mathlib

/-!
Verification of the content ingestion pipeline of `renvins/blog-engine`
(`src/main.go`) against its natural-language specification.

Modelling conventions (shallow embedding):

* Go strings are byte sequences; we model them as `List Nat` (one entry per
  byte).  Go's `len`, slicing (`s[:150]`), prefix/suffix trimming and
  splitting all operate on bytes, and so do the Lean counterparts below.
* `time.Time` values produced by `time.Parse("2006-01-02", s)` are midnight
  UTC calendar dates; we encode such a date as the natural number
  `year*10000 + month*100 + day`.  This encoding is strictly monotone in the
  chronological order, so Go's `t1.After(t2)` becomes `>` on the encoding.
  Go's zero `time.Time` is January 1 of year 1, i.e. `10101` (`zeroDate`).
  (`time.Parse` can produce years 0000–9999, and year 0 encodes below
  `zeroDate`, exactly as year 0 chronologically precedes year 1.)
* `goldmark.Convert` writes to a `bytes.Buffer`, whose write methods never
  return an error, so the conversion in `main.go` never fails; we model it
  as an arbitrary total function `convert` passed as a parameter (no claim
  inspects the produced markup).
* Reading an embedded file cannot fail either, so `loadPosts` is modelled on
  a list of `(fileName, fileContent)` pairs, given in enumeration
  (`ReadDir`, i.e. lexicographic) order.
-/

/-- Bytes of an ASCII string literal (all literals used below are ASCII,
for which the codepoint equals the byte). -/
def goStr (s : String) : List Nat :=
  s.data.map Char.toNat

/-- Go `strings.Index(s, sep)`: index of the first occurrence of `sep` in
`s`, `none` if absent (Go returns `-1`).  `idxOf [] s = some 0`, as in Go. -/
def idxOf (sep : List Nat) : List Nat → Option Nat
  | [] => if sep.isPrefixOf ([] : List Nat) then some 0 else none
  | b :: t => if sep.isPrefixOf (b :: t) then some 0 else (idxOf sep t).map (· + 1)

/-- Go `strings.SplitN(s, sep, n)` for `n ≥ 0` (with nonempty `sep`):
split around the first `n-1` occurrences of `sep`, the last part keeping
the unsplit remainder; `n = 0` yields `[]`. -/
def goSplitN (sep : List Nat) (s : List Nat) : Nat → List (List Nat)
  | 0 => []
  | n + 1 =>
    if n = 0 then [s]
    else
      match idxOf sep s with
      | none => [s]
      | some i => s.take i :: goSplitN sep (s.drop (i + sep.length)) n

/-- Go `strings.Split(s, sep)`: split around every occurrence of `sep`.
A string of length `k` contains at most `k` occurrences of a nonempty
separator, so `SplitN` with bound `k + 1` performs the full split. -/
def goSplit (sep s : List Nat) : List (List Nat) :=
  goSplitN sep s (s.length + 1)

/-- Go `strings.TrimSuffix(s, suffix)`. -/
def trimSuffix (s suffix : List Nat) : List Nat :=
  if suffix.isSuffixOf s then s.take (s.length - suffix.length) else s

/-- The six ASCII bytes Go's `strings.TrimSpace` fast path strips
(`'\t'`, `'\n'`, `'\v'`, `'\f'`, `'\r'`, `' '`).  All inputs exercised here
are ASCII, where Go's Unicode fallback never triggers. -/
def isAsciiSpace (b : Nat) : Bool :=
  b = 9 || b = 10 || b = 11 || b = 12 || b = 13 || b = 32

/-- Go `strings.TrimSpace` on ASCII input: strip leading and trailing
whitespace bytes. -/
def trimSpace (s : List Nat) : List Nat :=
  ((s.dropWhile isAsciiSpace).reverse.dropWhile isAsciiSpace).reverse

/-- Helper for `goExt`: walks the reversed file name accumulating bytes
until the first `'.'` (byte 46, extension found) or `'/'` (byte 47, path
separator: no extension), as `filepath.Ext`'s loop does. -/
def extFromRev : List Nat → List Nat → List Nat
  | [], _ => []
  | b :: rest, acc =>
    if b = 47 then []
    else if b = 46 then b :: acc
    else extFromRev rest (b :: acc)

/-- Go `path/filepath.Ext(path)`: the suffix beginning at the final dot of
the final path element, empty if there is none. -/
def goExt (s : List Nat) : List Nat :=
  extFromRev s.reverse []

/-- Slug derivation of `main.go:136-138`:
`strings.TrimSuffix(filename, filepath.Ext(filename))`. -/
def slugOf (name : List Nat) : List Nat :=
  trimSuffix name (goExt name)

/-- ASCII decimal digit test on a byte. -/
def isDigitByte (b : Nat) : Bool :=
  48 ≤ b && b ≤ 57

/-- Gregorian leap-year rule, as in Go `time.isLeap`. -/
def isLeapYear (y : Nat) : Bool :=
  y % 4 = 0 && (y % 100 ≠ 0 || y % 400 = 0)

/-- Days in a month, as in Go `time.daysIn`. -/
def daysIn (m y : Nat) : Nat :=
  if m = 2 then (if isLeapYear y then 29 else 28)
  else if m = 4 || m = 6 || m = 9 || m = 11 then 30
  else 31

/-- Go `time.Parse("2006-01-02", s)`: succeeds exactly on
`YYYY-MM-DD` (fixed-width decimal fields, byte 45 is `'-'`) with a valid
month and day-of-month, yielding the date encoding `y*10000 + m*100 + d`;
anything else errors (`none`). -/
def timeParse (s : List Nat) : Option Nat :=
  match s with
  | [y1, y2, y3, y4, 45, m1, m2, 45, d1, d2] =>
    if isDigitByte y1 && isDigitByte y2 && isDigitByte y3 && isDigitByte y4 &&
       isDigitByte m1 && isDigitByte m2 && isDigitByte d1 && isDigitByte d2 then
      let y := (y1 - 48) * 1000 + (y2 - 48) * 100 + (y3 - 48) * 10 + (y4 - 48)
      let m := (m1 - 48) * 10 + (m2 - 48)
      let d := (d1 - 48) * 10 + (d2 - 48)
      if 1 ≤ m && m ≤ 12 && 1 ≤ d && d ≤ daysIn m y then
        some (y * 10000 + m * 100 + d)
      else none
    else none
  | _ => none

/-- Encoding of Go's zero `time.Time` (January 1, year 1), yielded by the
zero `Post{}` and by a failed `time.Parse`. -/
def zeroDate : Nat := 10101

/-- `Post` of `main.go:85-91`.  `Content` holds the (uninterpreted)
markdown conversion of the raw body. -/
structure Post where
  Title : List Nat
  Date : Nat
  Slug : List Nat
  Content : List Nat
  Summary : List Nat
deriving DecidableEq, Repr

/-- `"Title: "` (the fixed field marker of `main.go:127`), as bytes. -/
def titleKey : List Nat := [84, 105, 116, 108, 101, 58, 32]

/-- `"Date: "` (the fixed field marker of `main.go:130`), as bytes. -/
def dateKey : List Nat := [68, 97, 116, 101, 58, 32]

/-- One iteration of the metadata loop of `main.go:126-134`, acting on the
accumulated `(Title, Date)` pair.  As in the source, both `if` statements
are checked independently, `Title` is taken verbatim after the marker
(no trimming), and the `Date` field is `strings.TrimSpace`d and then parsed,
a failed parse storing the zero time (`post.Date, _ = time.Parse(...)`). -/
def metaStep (acc : List Nat × Nat) (line : List Nat) : List Nat × Nat :=
  let acc := if titleKey.isPrefixOf line then (line.drop titleKey.length, acc.2) else acc
  if dateKey.isPrefixOf line then
    (acc.1, (timeParse (trimSpace (line.drop dateKey.length))).getD zeroDate)
  else acc

/-- The metadata loop of `main.go:126-134`, starting from the zero
`Post{}` (empty title, zero date). -/
def extractMeta (lines : List (List Nat)) : List Nat × Nat :=
  lines.foldl metaStep ([], zeroDate)

/-- Per-document parse errors of the pipeline (spec §7).  `RenderFailure`
is declared for completeness: with the conversion modelled as total (see
the module comment) it is never produced. -/
inductive ParseError where
  | MalformedStructure
  | RenderFailure
deriving DecidableEq, Repr

/-- `"---"`, the frontmatter delimiter of `main.go:114`, as bytes. -/
def threeDashes : List Nat := [45, 45, 45]

/-- `"\n"`, the line separator of `main.go:125`. -/
def nlStr : List Nat := [10]

/-- The per-document parsing of `main.go:112-152`: split on `"---"` into at
most three parts (fewer than three is the malformed-structure skip), run the
metadata loop on the lines of part 1, derive the slug from the file name,
convert the raw body (part 2) and compute the 150-byte summary with the
`"..."` marker. -/
def parsePost (convert : List Nat → List Nat) (name content : List Nat) :
    Except ParseError Post :=
  let parts := goSplitN threeDashes content 3
  if parts.length < 3 then .error .MalformedStructure
  else
    let metaRaw := parts.getD 1 []
    let bodyRaw := parts.getD 2 []
    let meta := extractMeta (goSplit nlStr metaRaw)
    let summary :=
      if 150 < bodyRaw.length then bodyRaw.take 150 ++ goStr "..." else bodyRaw
    .ok { Title := meta.1
          Date := meta.2
          Slug := slugOf name
          Content := convert bodyRaw
          Summary := summary }

/-- The lookup loop of `main.go:54-62`: first post whose `Slug` equals the
requested slug, `none` (the not-found outcome) otherwise. -/
def findBySlug (posts : List Post) (slug : List Nat) : Option Post :=
  posts.find? (fun p => p.Slug == slug)

/-!
Embedding of Go's `sort.Slice` (`go/src/sort/slice.go` together with the
pdqsort of `go/src/sort/zsortfunc.go`), which `main.go:158-160` uses to
order the posts.  `sort.Slice` is **not** a stable sort.

The embedding works on a `List α` with a boolean comparator; `lessIdx` and
`lswap` are the `data.Less(i, j)` and `data.Swap(i, j)` callbacks (reads of
out-of-range indices, which the Go code never performs, return `false`
resp. leave the list unchanged).  Go loops whose index variable is not
structurally decreasing are written with an explicit fuel argument; every
call site passes fuel exceeding the loop's iteration count (bounded by the
range width), so the fuel never runs out on any actual execution.
-/

/-- `data.Less(i, j)` on a list. -/
def lessIdx (less : α → α → Bool) (l : List α) (i j : Nat) : Bool :=
  match l[i]?, l[j]? with
  | some x, some y => less x y
  | _, _ => false

/-- `data.Swap(i, j)` on a list. -/
def lswap (l : List α) (i j : Nat) : List α :=
  match l[i]?, l[j]? with
  | some x, some y => (l.set i y).set j x
  | _, _ => l

/-- Inner loop of `insertionSort_func`:
`for j := i; j > a && data.Less(j, j-1); j-- { data.Swap(j, j-1) }`. -/
def insertionSortInner (less : α → α → Bool) (a : Nat) : List α → Nat → List α
  | l, 0 => l
  | l, j + 1 =>
    if a < j + 1 && lessIdx less l (j + 1) j then
      insertionSortInner less a (lswap l (j + 1) j) j
    else l

/-- Outer loop of `insertionSort_func` over `i = a+1, ..., b-1`; the fuel
starts at `b - a`, one unit per iteration. -/
def insertionSortAux (less : α → α → Bool) (a b : Nat) : Nat → List α → Nat → List α
  | 0, l, _ => l
  | fuel + 1, l, i =>
    if i < b then insertionSortAux less a b fuel (insertionSortInner less a l i) (i + 1)
    else l

/-- `insertionSort_func(data, a, b)`. -/
def insertionSortGo (less : α → α → Bool) (a b : Nat) (l : List α) : List α :=
  insertionSortAux less a b (b - a) l (a + 1)

/-- `siftDown_func(data, lo, hi, first)`; the root index strictly increases
each iteration, fuel `hi` suffices. -/
def siftDownGo (less : α → α → Bool) (first hi : Nat) : Nat → List α → Nat → List α
  | 0, l, _ => l
  | fuel + 1, l, root =>
    let child := 2 * root + 1
    if child < hi then
      let child :=
        if child + 1 < hi && lessIdx less l (first + child) (first + child + 1) then child + 1
        else child
      if lessIdx less l (first + root) (first + child) then
        siftDownGo less first hi fuel (lswap l (first + root) (first + child)) child
      else l
    else l

/-- Heap-building loop of `heapSort_func`:
`for i := (hi - 1) / 2; i >= 0; i--`, the counter argument holding `i + 1`. -/
def heapBuildAux (less : α → α → Bool) (first hi : Nat) : List α → Nat → List α
  | l, 0 => l
  | l, k + 1 => heapBuildAux less first hi (siftDownGo less first hi hi l k) k

/-- Pop loop of `heapSort_func`: `for i := hi - 1; i >= 0; i--`, the counter
argument holding `i + 1`. -/
def heapPopAux (less : α → α → Bool) (first : Nat) : List α → Nat → List α
  | l, 0 => l
  | l, k + 1 => heapPopAux less first (siftDownGo less first k k (lswap l first (first + k)) 0) k

/-- `heapSort_func(data, a, b)` (`lo = 0`, `hi = b - a`). -/
def heapSortGo (less : α → α → Bool) (a b : Nat) (l : List α) : List α :=
  let first := a
  let hi := b - a
  heapPopAux less first (heapBuildAux less first hi l ((hi - 1) / 2 + 1)) hi

/-- `order2_func(data, a, b, &swaps)`. -/
def order2Go (less : α → α → Bool) (l : List α) (a b swaps : Nat) : Nat × Nat × Nat :=
  if lessIdx less l b a then (b, a, swaps + 1) else (a, b, swaps)

/-- `median_func(data, a, b, c, &swaps)`. -/
def medianGo (less : α → α → Bool) (l : List α) (a b c swaps : Nat) : Nat × Nat :=
  match order2Go less l a b swaps with
  | (a, b, s) =>
    match order2Go less l b c s with
    | (b, _, s) =>
      match order2Go less l a b s with
      | (_, b, s) => (b, s)

/-- `medianAdjacent_func(data, a, &swaps)`. -/
def medianAdjGo (less : α → α → Bool) (l : List α) (a swaps : Nat) : Nat × Nat :=
  medianGo less l (a - 1) a (a + 1) swaps

/-- The three-valued `sortedHint` of the Go sort package. -/
inductive SortedHint where
  | increasing
  | decreasing
  | unknown
deriving DecidableEq, BEq, Repr

/-- `choosePivot_func(data, a, b)` (`shortestNinther = 50`,
`maxSwaps = 12`). -/
def choosePivotGo (less : α → α → Bool) (l : List α) (a b : Nat) : Nat × SortedHint :=
  let len := b - a
  let i := a + len / 4 * 1
  let j := a + len / 4 * 2
  let k := a + len / 4 * 3
  let js : Nat × Nat :=
    if 8 ≤ len then
      let ijks : Nat × Nat × Nat × Nat :=
        if 50 ≤ len then
          let is := medianAdjGo less l i 0
          let js := medianAdjGo less l j is.2
          let ks := medianAdjGo less l k js.2
          (is.1, js.1, ks.1, ks.2)
        else (i, j, k, 0)
      medianGo less l ijks.1 ijks.2.1 ijks.2.2.1 ijks.2.2.2
    else (j, 0)
  if js.2 = 0 then (js.1, SortedHint.increasing)
  else if js.2 = 12 then (js.1, SortedHint.decreasing)
  else (js.1, SortedHint.unknown)

/-- `reverseRange_func(data, a, b)`; each iteration narrows `j - i`, fuel
`b` suffices. -/
def reverseRangeGo : Nat → List α → Nat → Nat → List α
  | 0, l, _, _ => l
  | fuel + 1, l, i, j => if i < j then reverseRangeGo fuel (lswap l i j) (i + 1) (j - 1) else l

/-- One step of the Go sort package's `xorshift` generator, on `uint64`
values modelled as naturals below `2^64`. -/
def xorshiftNext (r : Nat) : Nat :=
  let r := (Nat.xor r ((r <<< 13) % 2 ^ 64)) % 2 ^ 64
  let r := Nat.xor r (r >>> 7)
  (Nat.xor r ((r <<< 17) % 2 ^ 64)) % 2 ^ 64

/-- Halving recursion behind `bitsLen`; the first argument is structural
fuel, and `n` halvings always reach `0`. -/
def bitsLenAux : Nat → Nat → Nat
  | 0, _ => 0
  | fuel + 1, n => if n = 0 then 0 else bitsLenAux fuel (n / 2) + 1

/-- `math/bits.Len`: number of bits needed to represent `n`. -/
def bitsLen (n : Nat) : Nat := bitsLenAux n n

/-- `breakPatterns_func(data, a, b)`: three pseudo-random swaps around the
middle of the range (the `for i := 0; i < 3; i++` loop unrolled). -/
def breakPatternsGo (l : List α) (a b : Nat) : List α :=
  let len := b - a
  if 8 ≤ len then
    let modulus := 2 ^ bitsLen len % 2 ^ 64
    let idx := a + len / 4 * 2 - 1
    let r1 := xorshiftNext (len % 2 ^ 64)
    let other1 := let o := Nat.land r1 (modulus - 1); if len ≤ o then o - len else o
    let l := lswap l (idx - 1) (a + other1)
    let r2 := xorshiftNext r1
    let other2 := let o := Nat.land r2 (modulus - 1); if len ≤ o then o - len else o
    let l := lswap l idx (a + other2)
    let r3 := xorshiftNext r2
    let other3 := let o := Nat.land r3 (modulus - 1); if len ≤ o then o - len else o
    lswap l (idx + 1) (a + other3)
  else l

/-- Advancing scan of `partialInsertionSort_func`:
`for i < b && !data.Less(i, i-1) { i++ }`; fuel `b` suffices. -/
def piAdvance (less : α → α → Bool) (l : List α) (b : Nat) : Nat → Nat → Nat
  | 0, i => i
  | fuel + 1, i =>
    if i < b then (if lessIdx less l i (i - 1) then i else piAdvance less l b fuel (i + 1))
    else i

/-- Left-shift loop of `partialInsertionSort_func`:
`for j := i-1; j >= 1; j-- { if !data.Less(j, j-1) break; data.Swap(j, j-1) }`. -/
def piShiftLeft (less : α → α → Bool) : List α → Nat → List α
  | l, 0 => l
  | l, j + 1 =>
    if lessIdx less l (j + 1) j then piShiftLeft less (lswap l (j + 1) j) j else l

/-- Right-shift loop of `partialInsertionSort_func`:
`for j := i+1; j < b; j++ { if !data.Less(j, j-1) break; data.Swap(j, j-1) }`;
fuel `b` suffices. -/
def piShiftRight (less : α → α → Bool) (b : Nat) : Nat → List α → Nat → List α
  | 0, l, _ => l
  | fuel + 1, l, j =>
    if j < b then
      (if lessIdx less l j (j - 1) then piShiftRight less b fuel (lswap l j (j - 1)) (j + 1)
       else l)
    else l

/-- Main loop of `partialInsertionSort_func` (`maxSteps = 5`,
`shortestShifting = 50`), the last argument counting the remaining steps. -/
def piLoop (less : α → α → Bool) (a b : Nat) : List α → Nat → Nat → List α × Bool
  | l, _, 0 => (l, false)
  | l, i, steps + 1 =>
    let i := piAdvance less l b b i
    if i = b then (l, true)
    else if b - a < 50 then (l, false)
    else
      let l := lswap l i (i - 1)
      let l := if 2 ≤ i - a then piShiftLeft less l (i - 1) else l
      let l := if 2 ≤ b - i then piShiftRight less b b l (i + 1) else l
      piLoop less a b l i steps

/-- `partialInsertionSort_func(data, a, b)`: `true` means the range ended
sorted. -/
def partialInsSortGo (less : α → α → Bool) (a b : Nat) (l : List α) : List α × Bool :=
  piLoop less a b l (a + 1) 5

/-- Scan `for i <= j && data.Less(i, a) { i++ }` of `partition_func`;
fuel `b` suffices. -/
def partScanI (less : α → α → Bool) (l : List α) (a j : Nat) : Nat → Nat → Nat
  | 0, i => i
  | fuel + 1, i =>
    if i ≤ j && lessIdx less l i a then partScanI less l a j fuel (i + 1) else i

/-- Scan `for i <= j && !data.Less(j, a) { j-- }` of `partition_func`; fuel
`b` suffices.  (The Go indices are ints; here `j` would stop at `0` instead
of going negative, but the scan is only ever entered with `i ≥ a + 1 ≥ 1`,
where `j` stops at `i - 1 ≥ a ≥ 0` exactly as in Go.) -/
def partScanJ (less : α → α → Bool) (l : List α) (a i : Nat) : Nat → Nat → Nat
  | 0, j => j
  | fuel + 1, j =>
    if i ≤ j && !lessIdx less l j a then partScanJ less l a i fuel (j - 1) else j

/-- Main loop of `partition_func`: scan from both ends, swap, repeat; each
iteration narrows `j - i` by two, fuel `b` suffices. -/
def partLoop (less : α → α → Bool) (a : Nat) : Nat → List α → Nat → Nat → List α × Nat
  | 0, l, _, j => (l, j)
  | fuel + 1, l, i, j =>
    let i := partScanI less l a j (j + 1) i
    let j := partScanJ less l a i (j + 1) j
    if j < i then (l, j)
    else partLoop less a fuel (lswap l i j) (i + 1) (j - 1)

/-- `partition_func(data, a, b, pivot)`: returns the array, the new pivot
position and `alreadyPartitioned`. -/
def partitionGo (less : α → α → Bool) (l : List α) (a b pivot : Nat) :
    List α × Nat × Bool :=
  let l := lswap l a pivot
  let i := partScanI less l a (b - 1) b (a + 1)
  let j := partScanJ less l a i b (b - 1)
  if j < i then (lswap l j a, j, true)
  else
    let lj := partLoop less a b (lswap l i j) (i + 1) (j - 1)
    (lswap lj.1 lj.2 a, lj.2, false)

/-- Scan `for i <= j && !data.Less(a, i) { i++ }` of `partitionEqual_func`. -/
def peScanI (less : α → α → Bool) (l : List α) (a j : Nat) : Nat → Nat → Nat
  | 0, i => i
  | fuel + 1, i =>
    if i ≤ j && !lessIdx less l a i then peScanI less l a j fuel (i + 1) else i

/-- Scan `for i <= j && data.Less(a, j) { j-- }` of `partitionEqual_func`. -/
def peScanJ (less : α → α → Bool) (l : List α) (a i : Nat) : Nat → Nat → Nat
  | 0, j => j
  | fuel + 1, j =>
    if i ≤ j && lessIdx less l a j then peScanJ less l a i fuel (j - 1) else j

/-- Main loop of `partitionEqual_func`; the returned index is the final `i`. -/
def peLoop (less : α → α → Bool) (a : Nat) : Nat → List α → Nat → Nat → List α × Nat
  | 0, l, i, _ => (l, i)
  | fuel + 1, l, i, j =>
    let i := peScanI less l a j (j + 1) i
    let j := peScanJ less l a i (j + 1) j
    if j < i then (l, i)
    else peLoop less a fuel (lswap l i j) (i + 1) (j - 1)

/-- `partitionEqual_func(data, a, b, pivot)`: returns the array and the new
pivot position. -/
def partitionEqualGo (less : α → α → Bool) (l : List α) (a b pivot : Nat) :
    List α × Nat :=
  let l := lswap l a pivot
  peLoop less a b l (a + 1) (b - 1)

/-- The `!wasBalanced` step of `pdqsort_func`: scatter the range with
`breakPatterns` and spend one unit of `limit`; otherwise leave both
unchanged. -/
def pdqBreak (wasBalanced : Bool) (l : List α) (a b limit : Nat) : List α × Nat :=
  if !wasBalanced then (breakPatternsGo l a b, limit - 1) else (l, limit)

/-- The decreasing-hint step of `pdqsort_func`: reverse the range, remap
the chosen pivot, and turn the hint into an increasing one. -/
def pdqReverse (l : List α) (a b : Nat) (pc : Nat × SortedHint) :
    List α × Nat × SortedHint :=
  if pc.2 = SortedHint.decreasing then
    (reverseRangeGo b l a (b - 1), b - 1 - (pc.1 - a), SortedHint.increasing)
  else (l, pc.1, pc.2)

/-- The likely-already-sorted step of `pdqsort_func`: try
`partialInsertionSort` when the previous partitioning was balanced and
partitioned and the hint is increasing. -/
def pdqPartialStep (less : α → α → Bool) (a b : Nat)
    (wasBalanced wasPartitioned : Bool) (l : List α) (hint : SortedHint) :
    List α × Bool :=
  if wasBalanced && wasPartitioned && decide (hint = SortedHint.increasing) then
    partialInsSortGo less a b l
  else (l, false)

/-- `pdqsort_func(data, a, b, limit)` (`maxInsertion = 12`).  The Go
function is a loop that recurses on the shorter side of each partition and
continues iterating on the longer side; both the loop steps and the
recursive calls strictly narrow the range, so fuel `length + 1` (as passed
by `pdqsortGo`) covers every execution.  `wasBalanced` and
`wasPartitioned` start `true` and are threaded exactly as in Go. -/
def pdqsortLoop (less : α → α → Bool) :
    Nat → List α → Nat → Nat → Nat → Bool → Bool → List α
  | 0, l, _, _, _, _, _ => l
  | fuel + 1, l, a, b, limit, wasBalanced, wasPartitioned =>
    let length := b - a
    if length ≤ 12 then insertionSortGo less a b l
    else if limit = 0 then heapSortGo less a b l
    else
      let p1 := pdqBreak wasBalanced l a b limit
      let pc := choosePivotGo less p1.1 a b
      let p2 := pdqReverse p1.1 a b pc
      let p3 := pdqPartialStep less a b wasBalanced wasPartitioned p2.1 p2.2.2
      if p3.2 then p3.1
      else
        if decide (0 < a) && !lessIdx less p3.1 (a - 1) p2.2.1 then
          let pe := partitionEqualGo less p3.1 a b p2.2.1
          pdqsortLoop less fuel pe.1 pe.2 b p1.2 wasBalanced wasPartitioned
        else
          let pr := partitionGo less p3.1 a b p2.2.1
          let mid := pr.2.1
          let wasBalanced2 := decide (length / 8 ≤ min (mid - a) (b - mid))
          if mid - a < b - mid then
            pdqsortLoop less fuel (pdqsortLoop less fuel pr.1 a mid p1.2 true true)
              (mid + 1) b p1.2 wasBalanced2 pr.2.2
          else
            pdqsortLoop less fuel (pdqsortLoop less fuel pr.1 (mid + 1) b p1.2 true true)
              a mid p1.2 wasBalanced2 pr.2.2

/-- Go `sort.Slice(x, less)`: `pdqsort_func(lessSwap, 0, length, bits.Len(length))`. -/
def pdqsortGo (less : α → α → Bool) (l : List α) : List α :=
  pdqsortLoop less (l.length + 1) l 0 l.length (bitsLen l.length) true true

/-- The comparator of `main.go:158-160`:
`posts[i].Date.After(posts[j].Date)`, i.e. strictly later date first. -/
def lessPost (x y : Post) : Bool :=
  decide (y.Date < x.Date)

/-- The sorting step of `loadPosts` (`main.go:157-160`). -/
def sortSlice (posts : List Post) : List Post :=
  pdqsortGo lessPost posts

/-- `loadPosts` (`main.go:96-164`) on a list of `(name, content)` pairs in
enumeration order: parse each file, skip the failures, and sort by date
descending with `sort.Slice`. -/
def loadPosts (convert : List Nat → List Nat) (files : List (List Nat × List Nat)) :
    List Post :=
  sortSlice (files.filterMap (fun fc => (parsePost convert fc.1 fc.2).toOption))

/-!
Permutation lemmas: every operation of the sort embedding only swaps
elements, so the sorted list is a permutation of the input.
-/

open List

theorem cons_set_perm (t : List α) (k : Nat) (y h : α) (hk : t[k]? = some y) :
    y :: t.set k h ~ h :: t := by
  induction t generalizing k with
  | nil => simp at hk
  | cons a t ih =>
    cases k with
    | zero =>
      simp only [List.getElem?_cons_zero, Option.some_inj] at hk
      subst hk
      simpa [List.set] using List.Perm.swap h a t
    | succ k =>
      simp only [List.getElem?_cons_succ] at hk
      calc y :: (a :: t).set (k + 1) h = y :: a :: t.set k h := by simp [List.set]
        _ ~ a :: y :: t.set k h := List.Perm.swap a y _
        _ ~ a :: (h :: t) := List.Perm.cons a (ih k hk)
        _ ~ h :: a :: t := List.Perm.swap h a t

theorem lswap_perm (l : List α) (i j : Nat) : lswap l i j ~ l := by
  unfold lswap
  cases hi : l[i]? with
  | none => exact List.Perm.refl l
  | some x =>
    cases hj : l[j]? with
    | none => exact List.Perm.refl l
    | some y =>
      simp only
      induction l generalizing i j with
      | nil => simp at hi
      | cons a t ih =>
        cases i with
        | zero =>
          simp only [List.getElem?_cons_zero, Option.some_inj] at hi
          subst hi
          cases j with
          | zero =>
            simp only [List.getElem?_cons_zero, Option.some_inj] at hj
            subst hj
            simp [List.set]
          | succ j =>
            simp only [List.getElem?_cons_succ] at hj
            simpa [List.set] using cons_set_perm t j y a hj
          -- in the `zero, zero` case both reads return the head
        | succ i =>
          simp only [List.getElem?_cons_succ] at hi
          cases j with
          | zero =>
            simp only [List.getElem?_cons_zero, Option.some_inj] at hj
            subst hj
            simpa [List.set] using cons_set_perm t i x a hi
          | succ j =>
            simp only [List.getElem?_cons_succ] at hj
            simpa [List.set] using List.Perm.cons a (ih i j hi hj)

theorem insertionSortInner_perm (less : α → α → Bool) (a : Nat) (l : List α) (j : Nat) :
    insertionSortInner less a l j ~ l := by
  induction j generalizing l with
  | zero => exact List.Perm.refl l
  | succ j ih =>
    rw [insertionSortInner]
    split
    · exact (ih _).trans (lswap_perm l (j + 1) j)
    · exact List.Perm.refl l

theorem insertionSortAux_perm (less : α → α → Bool) (a b fuel : Nat) (l : List α) (i : Nat) :
    insertionSortAux less a b fuel l i ~ l := by
  induction fuel generalizing l i with
  | zero => exact List.Perm.refl l
  | succ fuel ih =>
    rw [insertionSortAux]
    split
    · exact (ih _ _).trans (insertionSortInner_perm less a l i)
    · exact List.Perm.refl l

theorem insertionSortGo_perm (less : α → α → Bool) (a b : Nat) (l : List α) :
    insertionSortGo less a b l ~ l :=
  insertionSortAux_perm less a b (b - a) l (a + 1)

theorem siftDownGo_perm (less : α → α → Bool) (first hi fuel : Nat) (l : List α) (root : Nat) :
    siftDownGo less first hi fuel l root ~ l := by
  induction fuel generalizing l root with
  | zero => exact List.Perm.refl l
  | succ fuel ih =>
    simp only [siftDownGo]
    split
    · split
      · split
        · exact (ih _ _).trans (lswap_perm l _ _)
        · exact List.Perm.refl l
      · split
        · exact (ih _ _).trans (lswap_perm l _ _)
        · exact List.Perm.refl l
    · exact List.Perm.refl l

theorem heapBuildAux_perm (less : α → α → Bool) (first hi : Nat) (l : List α) (k : Nat) :
    heapBuildAux less first hi l k ~ l := by
  induction k generalizing l with
  | zero => exact List.Perm.refl l
  | succ k ih =>
    rw [heapBuildAux]
    exact (ih _).trans (siftDownGo_perm less first hi hi l k)

theorem heapPopAux_perm (less : α → α → Bool) (first : Nat) (l : List α) (k : Nat) :
    heapPopAux less first l k ~ l := by
  induction k generalizing l with
  | zero => exact List.Perm.refl l
  | succ k ih =>
    rw [heapPopAux]
    exact (ih _).trans ((siftDownGo_perm less first k k _ 0).trans (lswap_perm l first (first + k)))

theorem heapSortGo_perm (less : α → α → Bool) (a b : Nat) (l : List α) :
    heapSortGo less a b l ~ l := by
  unfold heapSortGo
  exact (heapPopAux_perm less a _ (b - a)).trans (heapBuildAux_perm less a (b - a) l _)

theorem reverseRangeGo_perm (fuel : Nat) (l : List α) (i j : Nat) :
    reverseRangeGo fuel l i j ~ l := by
  induction fuel generalizing l i j with
  | zero => exact List.Perm.refl l
  | succ fuel ih =>
    rw [reverseRangeGo]
    split
    · exact (ih _ _ _).trans (lswap_perm l i j)
    · exact List.Perm.refl l

theorem breakPatternsGo_perm (l : List α) (a b : Nat) :
    breakPatternsGo l a b ~ l := by
  simp only [breakPatternsGo]
  split
  · exact ((lswap_perm _ _ _).trans (lswap_perm _ _ _)).trans (lswap_perm _ _ _)
  · exact List.Perm.refl l

theorem piShiftLeft_perm (less : α → α → Bool) (l : List α) (j : Nat) :
    piShiftLeft less l j ~ l := by
  induction j generalizing l with
  | zero => exact List.Perm.refl l
  | succ j ih =>
    rw [piShiftLeft]
    split
    · exact (ih _).trans (lswap_perm l (j + 1) j)
    · exact List.Perm.refl l

theorem piShiftRight_perm (less : α → α → Bool) (b fuel : Nat) (l : List α) (j : Nat) :
    piShiftRight less b fuel l j ~ l := by
  induction fuel generalizing l j with
  | zero => exact List.Perm.refl l
  | succ fuel ih =>
    rw [piShiftRight]
    split
    · split
      · exact (ih _ _).trans (lswap_perm l j (j - 1))
      · exact List.Perm.refl l
    · exact List.Perm.refl l

theorem piLoop_perm (less : α → α → Bool) (a b : Nat) (l : List α) (i steps : Nat) :
    (piLoop less a b l i steps).1 ~ l := by
  induction steps generalizing l i with
  | zero => exact List.Perm.refl l
  | succ steps ih =>
    simp only [piLoop]
    split
    · exact List.Perm.refl l
    · split
      · exact List.Perm.refl l
      · refine (ih _ _).trans ?_
        split <;> split <;>
          first
          | exact ((piShiftRight_perm less b b _ _).trans
              (piShiftLeft_perm less _ _)).trans (lswap_perm _ _ _)
          | exact (piShiftLeft_perm less _ _).trans (lswap_perm _ _ _)
          | exact (piShiftRight_perm less b b _ _).trans (lswap_perm _ _ _)
          | exact lswap_perm _ _ _

theorem partialInsSortGo_perm (less : α → α → Bool) (a b : Nat) (l : List α) :
    (partialInsSortGo less a b l).1 ~ l :=
  piLoop_perm less a b l (a + 1) 5

theorem partLoop_perm (less : α → α → Bool) (a fuel : Nat) (l : List α) (i j : Nat) :
    (partLoop less a fuel l i j).1 ~ l := by
  induction fuel generalizing l i j with
  | zero => exact List.Perm.refl l
  | succ fuel ih =>
    simp only [partLoop]
    split
    · exact List.Perm.refl l
    · exact (ih _ _ _).trans (lswap_perm l _ _)

theorem partitionGo_perm (less : α → α → Bool) (l : List α) (a b pivot : Nat) :
    (partitionGo less l a b pivot).1 ~ l := by
  simp only [partitionGo]
  split
  · exact (lswap_perm _ _ _).trans (lswap_perm l a pivot)
  · exact ((lswap_perm _ _ _).trans ((partLoop_perm less a b _ _ _).trans
      (lswap_perm _ _ _))).trans (lswap_perm l a pivot)

theorem peLoop_perm (less : α → α → Bool) (a fuel : Nat) (l : List α) (i j : Nat) :
    (peLoop less a fuel l i j).1 ~ l := by
  induction fuel generalizing l i j with
  | zero => exact List.Perm.refl l
  | succ fuel ih =>
    simp only [peLoop]
    split
    · exact List.Perm.refl l
    · exact (ih _ _ _).trans (lswap_perm l _ _)

theorem partitionEqualGo_perm (less : α → α → Bool) (l : List α) (a b pivot : Nat) :
    (partitionEqualGo less l a b pivot).1 ~ l := by
  unfold partitionEqualGo
  exact (peLoop_perm less a b _ (a + 1) (b - 1)).trans (lswap_perm l a pivot)

theorem pdqBreak_perm (wasBalanced : Bool) (l : List α) (a b limit : Nat) :
    (pdqBreak wasBalanced l a b limit).1 ~ l := by
  unfold pdqBreak
  split
  · exact breakPatternsGo_perm l a b
  · exact List.Perm.refl l

theorem pdqReverse_perm (l : List α) (a b : Nat) (pc : Nat × SortedHint) :
    (pdqReverse l a b pc).1 ~ l := by
  unfold pdqReverse
  split
  · exact reverseRangeGo_perm b l a (b - 1)
  · exact List.Perm.refl l

theorem pdqPartialStep_perm (less : α → α → Bool) (a b : Nat)
    (wasBalanced wasPartitioned : Bool) (l : List α) (hint : SortedHint) :
    (pdqPartialStep less a b wasBalanced wasPartitioned l hint).1 ~ l := by
  unfold pdqPartialStep
  split
  · exact partialInsSortGo_perm less a b l
  · exact List.Perm.refl l

theorem pdqsortLoop_perm (less : α → α → Bool) (fuel : Nat) (l : List α)
    (a b limit : Nat) (wasBalanced wasPartitioned : Bool) :
    pdqsortLoop less fuel l a b limit wasBalanced wasPartitioned ~ l := by
  induction fuel generalizing l a b limit wasBalanced wasPartitioned with
  | zero => exact List.Perm.refl l
  | succ fuel ih =>
    simp only [pdqsortLoop]
    have base : (pdqPartialStep less a b wasBalanced wasPartitioned
        (pdqReverse (pdqBreak wasBalanced l a b limit).1 a b
          (choosePivotGo less (pdqBreak wasBalanced l a b limit).1 a b)).1
        (pdqReverse (pdqBreak wasBalanced l a b limit).1 a b
          (choosePivotGo less (pdqBreak wasBalanced l a b limit).1 a b)).2.2).1 ~ l :=
      ((pdqPartialStep_perm less a b wasBalanced wasPartitioned _ _).trans
        (pdqReverse_perm _ a b _)).trans (pdqBreak_perm wasBalanced l a b limit)
    split
    · exact insertionSortGo_perm less a b l
    · split
      · exact heapSortGo_perm less a b l
      · split
        · exact base
        · split
          · exact (ih _ _ _ _ _ _).trans ((partitionEqualGo_perm less _ a b _).trans base)
          · split
            · exact ((ih _ _ _ _ _ _).trans ((ih _ _ _ _ _ _).trans
                (partitionGo_perm less _ a b _))).trans base
            · exact ((ih _ _ _ _ _ _).trans ((ih _ _ _ _ _ _).trans
                (partitionGo_perm less _ a b _))).trans base

theorem pdqsortGo_perm (less : α → α → Bool) (l : List α) : pdqsortGo less l ~ l :=
  pdqsortLoop_perm less (l.length + 1) l 0 l.length (bitsLen l.length) true true

theorem sortSlice_perm (posts : List Post) : sortSlice posts ~ posts :=
  pdqsortGo_perm lessPost posts

/-!
Parser-level lemmas shared by several claims.
-/

theorem parsePost_eq_ok (convert : List Nat → List Nat)
    (name content pre metaRaw bodyRaw : List Nat)
    (h : goSplitN threeDashes content 3 = [pre, metaRaw, bodyRaw]) :
    parsePost convert name content = .ok
      { Title := (extractMeta (goSplit nlStr metaRaw)).1
        Date := (extractMeta (goSplit nlStr metaRaw)).2
        Slug := slugOf name
        Content := convert bodyRaw
        Summary := if 150 < bodyRaw.length then bodyRaw.take 150 ++ goStr "..."
                   else bodyRaw } := by
  unfold parsePost
  rw [h]
  simp

theorem length_filterMap_isSome (f : β → Option γ) (l : List β) :
    (l.filterMap f).length = (l.filter (fun x => (f x).isSome)).length := by
  induction l with
  | nil => rfl
  | cons x t ih =>
    cases hfx : f x <;> simp [List.filterMap_cons, hfx, List.filter_cons, ih]

theorem goExt_suffix_aux (r acc : List Nat) : extFromRev r acc <:+ r.reverse ++ acc := by
  induction r generalizing acc with
  | nil => simp only [extFromRev, List.reverse_nil, List.nil_append]; exact List.nil_suffix
  | cons b rest ih =>
    rw [extFromRev]
    split
    · exact List.nil_suffix
    · split
      · exact ⟨rest.reverse, by simp⟩
      · exact (ih (b :: acc)).trans ⟨[], by simp⟩

/-- `filepath.Ext` always returns a suffix of its argument. -/
theorem goExt_suffix (s : List Nat) : goExt s <:+ s := by
  have h := goExt_suffix_aux s.reverse []
  rw [goExt]
  simpa using h

/-- `TrimSuffix` against an actual suffix splits the string. -/
theorem trimSuffix_append (s suffix : List Nat) (h : suffix <:+ s) :
    trimSuffix s suffix ++ suffix = s := by
  obtain ⟨w, rfl⟩ := h
  unfold trimSuffix
  rw [if_pos (by simp [List.isSuffixOf_iff_suffix])]
  simp [List.take_left']

/-- The slug plus the stripped extension reassemble the file name: slug
derivation only removes the extension and never alters the kept bytes. -/
theorem slugOf_append_ext (name : List Nat) : slugOf name ++ goExt name = name :=
  trimSuffix_append name (goExt name) (goExt_suffix name)

theorem goExt_eq_nil_aux (r acc : List Nat) (h : 46 ∉ r) : extFromRev r acc = [] := by
  induction r generalizing acc with
  | nil => rfl
  | cons b rest ih =>
    rw [extFromRev]
    split
    · rfl
    · split
      · simp_all
      · exact ih _ (fun hr => h (List.mem_cons_of_mem b hr))

/-- A name without a dot has no extension. -/
theorem goExt_eq_nil (s : List Nat) (h : 46 ∉ s) : goExt s = [] :=
  goExt_eq_nil_aux s.reverse [] (by simpa using h)

/-- Slug derivation fixes any string without a dot. -/
theorem slugOf_no_dot (s : List Nat) (h : 46 ∉ s) : slugOf s = s := by
  unfold slugOf trimSuffix
  rw [goExt_eq_nil s h]
  simp [List.isSuffixOf_iff_suffix]

/-- Continuation-byte test (`10xxxxxx`) for UTF-8 validity. -/
def contB (b : Nat) : Bool := 128 ≤ b && b ≤ 191

/-- RFC 3629 validity of a byte sequence as UTF-8 (the check performed by
Go's `utf8.Valid`): ASCII bytes stand alone, `C2–DF`, `E0–EF` and `F0–F4`
open 2-, 3- and 4-byte sequences with the usual continuation ranges that
exclude overlong encodings and surrogates. -/
def isValidUTF8 : List Nat → Bool
  | [] => true
  | b :: t =>
    if b ≤ 127 then isValidUTF8 t
    else if 194 ≤ b && b ≤ 223 then
      match t with
      | c1 :: t1 => contB c1 && isValidUTF8 t1
      | [] => false
    else if 224 ≤ b && b ≤ 239 then
      match t with
      | c1 :: c2 :: t2 =>
        (if b = 224 then 160 ≤ c1 && c1 ≤ 191
         else if b = 237 then 128 ≤ c1 && c1 ≤ 159
         else contB c1) && contB c2 && isValidUTF8 t2
      | _ => false
    else if 240 ≤ b && b ≤ 244 then
      match t with
      | c1 :: c2 :: c3 :: t3 =>
        (if b = 240 then 144 ≤ c1 && c1 ≤ 191
         else if b = 244 then 128 ≤ c1 && c1 ≤ 143
         else contB c1) && contB c2 && contB c3 && isValidUTF8 t3
      | _ => false
    else false

/-- A 152-byte raw body that is valid UTF-8: 149 `'a'` bytes, the two-byte
encoding `C3 A9` of `é` straddling the 150-byte cut, and a final `'b'`. -/
def utf8Body : List Nat := List.replicate 149 97 ++ [195, 169, 98]

/-- A well-formed source document whose raw body is `utf8Body`. -/
def utf8Content : List Nat := threeDashes ++ [10] ++ threeDashes ++ utf8Body

/-- C2: for a parsed document, a raw body of at most 150 bytes is the
summary verbatim (no marker), and a longer raw body yields exactly its
first 150 bytes plus the `"..."` marker. -/
theorem summary_of_raw_body (convert : List Nat → List Nat)
    (name content pre metaRaw bodyRaw : List Nat)
    (h : goSplitN threeDashes content 3 = [pre, metaRaw, bodyRaw]) :
    (parsePost convert name content).toOption.map Post.Summary =
      some (if 150 < bodyRaw.length then bodyRaw.take 150 ++ goStr "..."
            else bodyRaw) := by
  rw [parsePost_eq_ok convert name content pre metaRaw bodyRaw h]
  rfl

theorem summary_of_raw_body_witness :
    goSplitN threeDashes (goStr "---\nTitle: a\n---\nHello") 3 =
      [[], goStr "\nTitle: a\n", goStr "\nHello"] ∧
    (parsePost (fun b => b) (goStr "a.md") (goStr "---\nTitle: a\n---\nHello")).toOption.map
      Post.Summary = some (goStr "\nHello") := by
  refine ⟨by decide, ?_⟩
  have h := summary_of_raw_body (fun b => b) (goStr "a.md") (goStr "---\nTitle: a\n---\nHello")
    [] (goStr "\nTitle: a\n") (goStr "\nHello") (by decide)
  simpa using h

set_option maxRecDepth 8000 in
/-- C9: the 150-unit summary cutoff is taken on raw bytes: above 150 bytes
the pre-marker prefix is exactly the first 150 bytes.  In particular a
multi-byte UTF-8 character straddling the boundary is split: `utf8Body` is
valid UTF-8, but the summary produced for it is not. -/
theorem summary_cut_on_bytes :
    (∀ (convert : List Nat → List Nat) (name content pre metaRaw bodyRaw : List Nat),
      goSplitN threeDashes content 3 = [pre, metaRaw, bodyRaw] →
      150 < bodyRaw.length →
      (parsePost convert name content).toOption.map Post.Summary =
        some (bodyRaw.take 150 ++ goStr "...")) ∧
    isValidUTF8 utf8Body = true ∧
    (parsePost (fun b => b) (goStr "e.md") utf8Content).toOption.map
      (fun p => isValidUTF8 p.Summary) = some false := by
  refine ⟨?_, by decide, by decide⟩
  intro convert name content pre metaRaw bodyRaw h hlen
  rw [parsePost_eq_ok convert name content pre metaRaw bodyRaw h, if_pos hlen]
  rfl

set_option maxRecDepth 8000 in
theorem summary_cut_on_bytes_witness :
    (parsePost (fun b => b) (goStr "e.md") utf8Content).toOption.map Post.Summary =
      some (utf8Body.take 150 ++ goStr "...") :=
  summary_cut_on_bytes.1 (fun b => b) (goStr "e.md") utf8Content [] [10] utf8Body
    (by decide) (by decide)

/-- C3: parsing succeeds exactly when splitting on `"---"` yields three
segments; with fewer segments it fails with `MalformedStructure`; and the
failed documents are skipped: the built index has exactly one entry per
file whose parse succeeded. -/
theorem parse_malformed_structure :
    (∀ (convert : List Nat → List Nat) (name content : List Nat),
      (∃ p, parsePost convert name content = .ok p) ↔
        3 ≤ (goSplitN threeDashes content 3).length) ∧
    (∀ (convert : List Nat → List Nat) (name content : List Nat),
      (goSplitN threeDashes content 3).length < 3 →
      parsePost convert name content = .error .MalformedStructure) ∧
    (∀ (convert : List Nat → List Nat) (files : List (List Nat × List Nat)),
      (loadPosts convert files).length =
        (files.filter (fun fc => (parsePost convert fc.1 fc.2).toOption.isSome)).length) := by
  refine ⟨?_, ?_, ?_⟩
  · intro convert name content
    by_cases h : (goSplitN threeDashes content 3).length < 3
    · simp only [parsePost, h, if_true, reduceCtorEq, exists_false, false_iff]
      omega
    · simp only [parsePost, h, if_false]
      constructor
      · intro _
        omega
      · exact fun _ => ⟨_, rfl⟩
  · intro convert name content h
    simp [parsePost, h]
  · intro convert files
    rw [loadPosts, (sortSlice_perm _).length_eq, length_filterMap_isSome]

theorem parse_malformed_structure_witness :
    parsePost (fun b => b) (goStr "a.md") (goStr "--- only one delimiter") =
      Except.error ParseError.MalformedStructure :=
  parse_malformed_structure.2.1 (fun b => b) (goStr "a.md")
    (goStr "--- only one delimiter") (by decide)

/-- C5: a slug carried by no document of the built index is answered with
the not-found outcome, never some default document. -/
theorem findBySlug_absent (convert : List Nat → List Nat)
    (files : List (List Nat × List Nat)) (id : List Nat)
    (h : ∀ p ∈ loadPosts convert files, p.Slug ≠ id) :
    findBySlug (loadPosts convert files) id = none := by
  rw [findBySlug, List.find?_eq_none]
  intro p hp
  simpa using h p hp

theorem findBySlug_absent_witness :
    findBySlug (loadPosts (fun b => b)
      [(goStr "a.md", goStr "---\nTitle: a\n---\nbody")]) (goStr "zzz") = none :=
  findBySlug_absent (fun b => b) [(goStr "a.md", goStr "---\nTitle: a\n---\nbody")]
    (goStr "zzz") (by decide)

/-- C6 counterexample: slug derivation is *not* idempotent.  The file name
`a.b.md` derives the slug `a.b`, and deriving again strips the remaining
`.b` as an extension, yielding `a`. -/
theorem slug_not_idempotent :
    slugOf (goStr "a.b.md") = goStr "a.b" ∧
    slugOf (slugOf (goStr "a.b.md")) ≠ slugOf (goStr "a.b.md") := by
  decide

/-- C6 (amended): slug derivation is deterministic, stripping the
recognized extension never alters the remaining bytes or their case (the
slug plus the stripped extension reassemble the name exactly), and the
derivation is idempotent whenever the derived slug contains no further dot
(byte 46) — re-deriving a slug that still contains a dot strips another
extension. -/
theorem slug_strip_amended :
    (∀ name : List Nat, slugOf name ++ goExt name = name) ∧
    (∀ name : List Nat, (46 : Nat) ∉ slugOf name →
      slugOf (slugOf name) = slugOf name) :=
  ⟨slugOf_append_ext, fun _ h => slugOf_no_dot _ h⟩

theorem slug_strip_amended_witness :
    slugOf (goStr "post-a.md") ++ goExt (goStr "post-a.md") = goStr "post-a.md" ∧
    slugOf (slugOf (goStr "post-a.md")) = slugOf (goStr "post-a.md") :=
  ⟨slug_strip_amended.1 (goStr "post-a.md"),
   slug_strip_amended.2 (goStr "post-a.md") (by decide)⟩

theorem dateKey_not_on_title (x : List Nat) :
    dateKey.isPrefixOf (titleKey ++ x) = false := by
  simp [dateKey, titleKey, List.isPrefixOf]

theorem titleKey_not_on_date (x : List Nat) :
    titleKey.isPrefixOf (dateKey ++ x) = false := by
  simp [dateKey, titleKey, List.isPrefixOf]

theorem metaStep_title (acc : List Nat × Nat) (x : List Nat) :
    metaStep acc (titleKey ++ x) = (x, acc.2) := by
  rw [metaStep]
  simp [dateKey_not_on_title, List.isPrefixOf_iff_prefix, List.drop_left]

theorem metaStep_date (acc : List Nat × Nat) (x : List Nat) :
    metaStep acc (dateKey ++ x) =
      (acc.1, (timeParse (trimSpace x)).getD zeroDate) := by
  rw [metaStep]
  simp [titleKey_not_on_date, List.isPrefixOf_iff_prefix, List.drop_left]

/-- C10: header-field handling is asymmetric.  The stored title is
everything after `"Title: "` with no trimming whatsoever — in particular a
trailing carriage return (byte 13) of a CRLF-encoded metadata line stays in
the title — whereas the `Date: ` value is whitespace-trimmed before date
parsing, so the same trailing carriage return does not break the date. -/
theorem title_untrimmed_date_trimmed :
    (∀ t d : List Nat,
      extractMeta [titleKey ++ t ++ [13], dateKey ++ d ++ [13]] =
        (t ++ [13], (timeParse (trimSpace (d ++ [13]))).getD zeroDate)) ∧
    extractMeta [goStr "Title: x" ++ [13], goStr "Date: 2024-01-02" ++ [13]] =
      (goStr "x" ++ [13], 20240102) := by
  constructor
  · intro t d
    rw [extractMeta, List.foldl_cons, List.foldl_cons, List.foldl_nil,
      List.append_assoc titleKey t [13], List.append_assoc dateKey d [13],
      metaStep_title, metaStep_date]
  · decide

theorem except_toOption_eq_some (e : Except ParseError Post) (p : Post) :
    e.toOption = some p ↔ e = .ok p := by
  cases e <;> simp [Except.toOption]

theorem parse_ok_slug (convert : List Nat → List Nat) (name content : List Nat)
    (p : Post) (h : parsePost convert name content = .ok p) :
    p.Slug = slugOf name := by
  simp only [parsePost] at h
  split at h
  · exact absurd h (by simp)
  · rw [Except.ok.injEq] at h
    subst h
    rfl

/-- Names ending in `".md"` always have extension exactly `".md"`. -/
theorem goExt_md (w : List Nat) : goExt (w ++ [46, 109, 100]) = [46, 109, 100] := by
  rw [goExt]
  simp [List.reverse_append, extFromRev]

/-- Stripping the extension from a name ending in `".md"` drops exactly
those three bytes. -/
theorem slugOf_md (w : List Nat) : slugOf (w ++ [46, 109, 100]) = w := by
  rw [slugOf, goExt_md, trimSuffix]
  rw [if_pos (by simp [List.isSuffixOf_iff_suffix])]
  have hl : (w ++ [46, 109, 100]).length - [46, 109, 100].length = w.length := by simp
  rw [hl, List.take_left' rfl]

theorem slugs_of_filterMap (convert : List Nat → List Nat)
    (files : List (List Nat × List Nat)) :
    (files.filterMap (fun fc => (parsePost convert fc.1 fc.2).toOption)).map Post.Slug =
      (files.filter (fun fc => (parsePost convert fc.1 fc.2).toOption.isSome)).map
        (fun fc => slugOf fc.1) := by
  induction files with
  | nil => rfl
  | cons fc t ih =>
    cases hp : (parsePost convert fc.1 fc.2).toOption with
    | none => simp [List.filterMap_cons, List.filter_cons, hp, ih]
    | some p =>
      have hs : p.Slug = slugOf fc.1 :=
        parse_ok_slug convert fc.1 fc.2 p ((except_toOption_eq_some _ _).1 hp)
      simp [List.filterMap_cons, List.filter_cons, hp, ih, hs]

theorem loadPosts_slugs_nodup (convert : List Nat → List Nat)
    (files : List (List Nat × List Nat))
    (hnames : (files.map Prod.fst).Nodup)
    (hmd : ∀ fc ∈ files, [46, 109, 100] <:+ fc.1) :
    ((loadPosts convert files).map Post.Slug).Nodup := by
  rw [loadPosts]
  rw [List.Perm.nodup_iff ((sortSlice_perm _).map Post.Slug)]
  rw [slugs_of_filterMap]
  have heq : (files.filter (fun fc => (parsePost convert fc.1 fc.2).toOption.isSome)).map
      (fun fc => slugOf fc.1) =
      ((files.filter (fun fc => (parsePost convert fc.1 fc.2).toOption.isSome)).map
        Prod.fst).map slugOf := by
    rw [List.map_map]
    rfl
  rw [heq]
  have hsub : (files.filter
      (fun fc => (parsePost convert fc.1 fc.2).toOption.isSome)).map Prod.fst <+
      files.map Prod.fst :=
    (List.filter_sublist files).map Prod.fst
  refine List.Nodup.map_on ?_ (hsub.nodup hnames)
  intro x hx y hy hxy
  have hxmem : ∃ fc ∈ files, fc.1 = x := by
    obtain ⟨fc, hfc, rfl⟩ := List.mem_map.1 hx
    exact ⟨fc, (List.mem_filter.1 hfc).1, rfl⟩
  have hymem : ∃ fc ∈ files, fc.1 = y := by
    obtain ⟨fc, hfc, rfl⟩ := List.mem_map.1 hy
    exact ⟨fc, (List.mem_filter.1 hfc).1, rfl⟩
  obtain ⟨fcx, hfcx, rfl⟩ := hxmem
  obtain ⟨fcy, hfcy, rfl⟩ := hymem
  obtain ⟨wx, hwx⟩ := hmd fcx hfcx
  obtain ⟨wy, hwy⟩ := hmd fcy hfcy
  rw [← hwx, ← hwy] at hxy ⊢
  rw [slugOf_md, slugOf_md] at hxy
  rw [hxy]

theorem find_self (l : List Post) (hnd : (l.map Post.Slug).Nodup)
    (p : Post) (hp : p ∈ l) :
    l.find? (fun q => q.Slug == p.Slug) = some p := by
  induction l with
  | nil => simp at hp
  | cons h t ih =>
    rw [List.map_cons, List.nodup_cons] at hnd
    rcases List.mem_cons.1 hp with rfl | hpt
    · exact List.find?_cons_of_pos _ (by simp)
    · have hne : (h.Slug == p.Slug) = false := by
        simp only [beq_eq_false_iff_ne, ne_eq]
        intro he
        exact hnd.1 (he ▸ List.mem_map_of_mem Post.Slug hpt)
      rw [List.find?_cons_of_neg _ (by simp [hne])]
      exact ih hnd.2 hpt

/-- C4: the lookup round-trips with listing.  For distinct source names all
carrying the `.md` extension (which is what the embedded `content/*.md`
collection provides), every document of the built index is found by its own
slug — not merely some document. -/
theorem findBySlug_roundtrip (convert : List Nat → List Nat)
    (files : List (List Nat × List Nat))
    (hnames : (files.map Prod.fst).Nodup)
    (hmd : ∀ fc ∈ files, [46, 109, 100] <:+ fc.1)
    (p : Post) (hp : p ∈ loadPosts convert files) :
    findBySlug (loadPosts convert files) p.Slug = some p :=
  find_self _ (loadPosts_slugs_nodup convert files hnames hmd) p hp

/-- Two `.md` sources for the round-trip witness. -/
def rtFiles : List (List Nat × List Nat) :=
  [(goStr "a.md", goStr "---\nTitle: A\nDate: 2024-05-01\n---\nAAA"),
   (goStr "b.md", goStr "---\nTitle: B\nDate: 2024-02-03\n---\nBBB")]

/-- The document parsed from `b.md` of `rtFiles`. -/
def rtPostB : Post :=
  { Title := goStr "B", Date := 20240203, Slug := goStr "b",
    Content := goStr "\nBBB", Summary := goStr "\nBBB" }

theorem findBySlug_roundtrip_witness :
    findBySlug (loadPosts (fun b => b) rtFiles) rtPostB.Slug = some rtPostB :=
  findBySlug_roundtrip (fun b => b) rtFiles (by decide) (by decide) rtPostB (by decide)

theorem foldl_metaStep_date_zero (lines : List (List Nat)) :
    (∀ line ∈ lines, dateKey.isPrefixOf line = true →
      timeParse (trimSpace (line.drop dateKey.length)) = none) →
    ∀ acc : List Nat × Nat, acc.2 = zeroDate →
    (lines.foldl metaStep acc).2 = zeroDate := by
  induction lines with
  | nil =>
    intro _ acc hacc
    simpa using hacc
  | cons line rest ih =>
    intro h acc hacc
    rw [List.foldl_cons]
    refine ih (fun l hl hp => h l (List.mem_cons_of_mem _ hl) hp) _ ?_
    rw [metaStep]
    by_cases hd : dateKey.isPrefixOf line = true
    · simp only [hd, if_true]
      rw [h line (List.mem_cons_self _ _) hd]
      rfl
    · simp only [hd, if_false]
      by_cases ht : titleKey.isPrefixOf line = true <;> simp [ht, hacc]

/-- The three sources of spec scenario C: two well-dated documents and one
whose `Date:` value `not-a-date` does not parse. -/
def scenCFiles : List (List Nat × List Nat) :=
  [(goStr "pa.md", goStr "---\nTitle: PA\nDate: 2024-01-01\n---\naaa"),
   (goStr "pb.md", goStr "---\nTitle: PB\nDate: 2024-06-01\n---\nbbb"),
   (goStr "pc.md", goStr "---\nTitle: PC\nDate: not-a-date\n---\nccc")]

/-- C7: a structurally valid source whose `Date:` values are all missing or
unparseable still parses, with the zero/sentinel `publishedAt`; the sort
comparator places every strictly-later-dated document before it (and never
the reverse); and in scenario C the bad-dated document lands in the oldest
position of the built index. -/
theorem bad_date_zero_value :
    (∀ (convert : List Nat → List Nat) (name content pre metaRaw bodyRaw : List Nat),
      goSplitN threeDashes content 3 = [pre, metaRaw, bodyRaw] →
      (∀ line ∈ goSplit nlStr metaRaw, dateKey.isPrefixOf line = true →
        timeParse (trimSpace (line.drop dateKey.length)) = none) →
      (parsePost convert name content).toOption.map Post.Date = some zeroDate) ∧
    (∀ p q : Post, p.Date = zeroDate → zeroDate < q.Date →
      lessPost q p = true ∧ lessPost p q = false) ∧
    (loadPosts (fun b => b) scenCFiles).map Post.Date = [20240601, 20240101, zeroDate] := by
  refine ⟨?_, ?_, by decide⟩
  · intro convert name content pre metaRaw bodyRaw h hbad
    rw [parsePost_eq_ok convert name content pre metaRaw bodyRaw h]
    have hz : (extractMeta (goSplit nlStr metaRaw)).2 = zeroDate :=
      foldl_metaStep_date_zero (goSplit nlStr metaRaw) hbad ([], zeroDate) rfl
    simp [Except.toOption, hz]
  · intro p q hp hq
    constructor
    · simp only [lessPost, hp, decide_eq_true_eq]
      omega
    · simp only [lessPost, hp, decide_eq_false_iff_not]
      omega

theorem bad_date_zero_value_witness :
    (parsePost (fun b => b) (goStr "pc.md")
      (goStr "---\nTitle: PC\nDate: not-a-date\n---\nccc")).toOption.map Post.Date =
      some zeroDate :=
  bad_date_zero_value.1 (fun b => b) (goStr "pc.md")
    (goStr "---\nTitle: PC\nDate: not-a-date\n---\nccc")
    [] (goStr "\nTitle: PC\nDate: not-a-date\n") (goStr "\nccc")
    (by decide) (by decide)

/-- Sorting a two-element list compares the pair once and keeps the order
when the comparison says no. -/
theorem sortSlice_pair (p1 p2 : Post) (h : lessPost p2 p1 = false) :
    sortSlice [p1, p2] = [p1, p2] := by
  have hred : sortSlice [p1, p2] =
      if lessPost p2 p1 then [p2, p1] else [p1, p2] := rfl
  rw [hred, h]
  simp

/-- C8 (amended): when two source files derive the same slug, both
documents still enter the index — the collision is neither a build error
nor a warning, and neither document is dropped — and `findBySlug` answers
with the *first* matching document in the date-sorted order.  In
particular, when the earlier-processed file carries the strictly later
date, the earlier-processed file's document wins, not the later-processed
one. -/
theorem slug_collision_behavior (convert : List Nat → List Nat)
    (n1 c1 n2 c2 : List Nat) (p1 p2 : Post)
    (h1 : parsePost convert n1 c1 = .ok p1)
    (h2 : parsePost convert n2 c2 = .ok p2)
    (hdate : p2.Date < p1.Date) :
    loadPosts convert [(n1, c1), (n2, c2)] = [p1, p2] ∧
    (p1.Slug = p2.Slug →
      findBySlug (loadPosts convert [(n1, c1), (n2, c2)]) p2.Slug = some p1) := by
  have hload : loadPosts convert [(n1, c1), (n2, c2)] = sortSlice [p1, p2] := by
    rw [loadPosts]
    simp [List.filterMap_cons, h1, h2, Except.toOption]
  have hless : lessPost p2 p1 = false := by
    simp only [lessPost, decide_eq_false_iff_not]
    omega
  have hpair := sortSlice_pair p1 p2 hless
  refine ⟨hload.trans hpair, fun hslug => ?_⟩
  rw [hload, hpair, findBySlug]
  exact List.find?_cons_of_pos _ (by simp [hslug])

/-- Two sources with colliding slug `a`: the earlier-enumerated `a.md`
(June 2024) and the later-enumerated `a.txt` (January 2020). -/
def dupFiles : List (List Nat × List Nat) :=
  [(goStr "a.md", goStr "---\nTitle: first\nDate: 2024-06-01\n---\nxxx"),
   (goStr "a.txt", goStr "---\nTitle: second\nDate: 2020-01-01\n---\nyyy")]

/-- C8 counterexample: with the colliding sources `dupFiles`, the slug
collision is *not* "last wins".  The later-processed source `a.txt` parses
to the document titled `second`, yet `findBySlug` on the shared slug `a`
answers the earlier-processed file's document (titled `first`), because it
returns the first match in the date-sorted index. -/
theorem slug_collision_not_last_wins :
    (parsePost (fun b => b) (goStr "a.txt")
      (goStr "---\nTitle: second\nDate: 2020-01-01\n---\nyyy")).toOption.map Post.Title =
      some (goStr "second") ∧
    (findBySlug (loadPosts (fun b => b) dupFiles) (goStr "a")).map Post.Title =
      some (goStr "first") ∧
    (findBySlug (loadPosts (fun b => b) dupFiles) (goStr "a")).map Post.Title ≠
      some (goStr "second") := by
  refine ⟨by decide, by decide, by decide⟩

/-- The document parsed from `a.md` of `dupFiles`. -/
def dupPost1 : Post :=
  { Title := goStr "first", Date := 20240601, Slug := goStr "a",
    Content := goStr "\nxxx", Summary := goStr "\nxxx" }

/-- The document parsed from `a.txt` of `dupFiles`. -/
def dupPost2 : Post :=
  { Title := goStr "second", Date := 20200101, Slug := goStr "a",
    Content := goStr "\nyyy", Summary := goStr "\nyyy" }

theorem slug_collision_behavior_witness :
    loadPosts (fun b => b) dupFiles = [dupPost1, dupPost2] ∧
    findBySlug (loadPosts (fun b => b) dupFiles) dupPost2.Slug = some dupPost1 := by
  have h := slug_collision_behavior (fun b => b)
    (goStr "a.md") (goStr "---\nTitle: first\nDate: 2024-06-01\n---\nxxx")
    (goStr "a.txt") (goStr "---\nTitle: second\nDate: 2020-01-01\n---\nyyy")
    dupPost1 dupPost2 (by rfl) (by rfl) (by decide)
  exact ⟨h.1, h.2 (by decide)⟩

/-- Thirteen sources `p00.md … p12.md` in enumeration order.  `p01` and
`p09` share the date 2024-01-26; all other dates are pairwise distinct.
Thirteen elements is the smallest size at which `sort.Slice` leaves its
always-stable insertion-sort regime (`maxInsertion = 12`) and partitions. -/
def unstableFiles : List (List Nat × List Nat) :=
  [(goStr "p00.md", goStr "---\nDate: 2024-01-06\n---\nb"),
   (goStr "p01.md", goStr "---\nDate: 2024-01-26\n---\nb"),
   (goStr "p02.md", goStr "---\nDate: 2024-01-18\n---\nb"),
   (goStr "p03.md", goStr "---\nDate: 2024-01-27\n---\nb"),
   (goStr "p04.md", goStr "---\nDate: 2024-01-30\n---\nb"),
   (goStr "p05.md", goStr "---\nDate: 2024-01-14\n---\nb"),
   (goStr "p06.md", goStr "---\nDate: 2024-01-11\n---\nb"),
   (goStr "p07.md", goStr "---\nDate: 2024-01-29\n---\nb"),
   (goStr "p08.md", goStr "---\nDate: 2024-01-10\n---\nb"),
   (goStr "p09.md", goStr "---\nDate: 2024-01-26\n---\nb"),
   (goStr "p10.md", goStr "---\nDate: 2024-01-04\n---\nb"),
   (goStr "p11.md", goStr "---\nDate: 2024-01-21\n---\nb"),
   (goStr "p12.md", goStr "---\nDate: 2024-01-17\n---\nb")]

set_option maxRecDepth 8000 in
/-- C1 (counterexample to the stability part): on `unstableFiles` the built
index is sorted by date descending, but the equal-dated documents `p01` and
`p09` come out in *reversed* enumeration order (`p09` before `p01`): the
`sort.Slice` call of `main.go:158` is not a stable sort, so the claimed
stable tie order does not hold.  (A stable descending sort of this input
would place `p01` fourth and `p09` fifth; the code produces the opposite.) -/
theorem sort_not_stable :
    (loadPosts (fun b => b) unstableFiles).map (fun p => (p.Slug, p.Date)) =
      [(goStr "p04", 20240130), (goStr "p07", 20240129), (goStr "p03", 20240127),
       (goStr "p09", 20240126), (goStr "p01", 20240126), (goStr "p11", 20240121),
       (goStr "p02", 20240118), (goStr "p12", 20240117), (goStr "p05", 20240114),
       (goStr "p06", 20240111), (goStr "p08", 20240110), (goStr "p00", 20240106),
       (goStr "p10", 20240104)] := by
  decide

/-!
Sortedness of the `sort.Slice` embedding.  The comparator of `main.go` is
keyed: `less x y` holds exactly when `key y < key x` for the natural-number
key `Post.Date`.  We prove that `pdqsortGo` with any such keyed comparator
produces a list whose keys are descending, by establishing for every
subroutine (a) a frame property — only the worked range `[a, b)` changes —
and (b) its sorting or partitioning postcondition, and composing them along
the recursion of `pdqsort_func`.
-/

/-- The keyed comparator shape of `main.go:158-160` (`lessPost` is
`keyLess Post.Date`). -/
def keyLess (key : α → Nat) : α → α → Bool :=
  fun x y => decide (key y < key x)

/-- Key of the element at index `i` (`0` out of range; every use is in
range). -/
def kAt (key : α → Nat) (l : List α) (i : Nat) : Nat :=
  ((l[i]?).map key).getD 0

/-- The segment `[a, b)` of a list. -/
def seg (l : List α) (a b : Nat) : List α :=
  (l.drop a).take (b - a)

/-- Frame relation: `l'` agrees with `l` in length and at every position
outside `[a, b)`. -/
def eqOutside (a b : Nat) (l l' : List α) : Prop :=
  l'.length = l.length ∧ ∀ k, k < a ∨ b ≤ k → l'[k]? = l[k]?

/-- Keys of the segment `[a, b)` are descending (every earlier position is
at least every later one). -/
def sortedSeg (key : α → Nat) (l : List α) (a b : Nat) : Prop :=
  ∀ i j, a ≤ i → i < j → j < b → j < l.length → kAt key l j ≤ kAt key l i

theorem eqOutside_refl (a b : Nat) (l : List α) : eqOutside a b l l :=
  ⟨rfl, fun _ _ => rfl⟩

theorem eqOutside_trans {a b : Nat} {l1 l2 l3 : List α}
    (h1 : eqOutside a b l1 l2) (h2 : eqOutside a b l2 l3) : eqOutside a b l1 l3 :=
  ⟨h2.1.trans h1.1, fun k hk => (h2.2 k hk).trans (h1.2 k hk)⟩

theorem eqOutside_mono {a b a' b' : Nat} {l l' : List α}
    (ha : a' ≤ a) (hb : b ≤ b') (h : eqOutside a b l l') : eqOutside a' b' l l' :=
  ⟨h.1, fun k hk => h.2 k (by omega)⟩

theorem lswap_length (l : List α) (i j : Nat) : (lswap l i j).length = l.length := by
  unfold lswap
  cases hi : l[i]? <;> cases hj : l[j]? <;> simp

theorem lswap_oob (l : List α) (i j : Nat) (h : l.length ≤ i ∨ l.length ≤ j) :
    lswap l i j = l := by
  unfold lswap
  rcases h with h | h
  · rw [List.getElem?_eq_none h]
  · rw [List.getElem?_eq_none h]
    cases l[i]? <;> rfl

theorem lswap_getElem (l : List α) (i j k : Nat) (hi : i < l.length)
    (hj : j < l.length) :
    (lswap l i j)[k]? = if j = k then l[i]? else if i = k then l[j]? else l[k]? := by
  have hi' : l[i]? = some l[i] := List.getElem?_eq_getElem hi
  have hj' : l[j]? = some l[j] := List.getElem?_eq_getElem hj
  unfold lswap
  rw [hi', hj']
  simp only [List.getElem?_set, List.length_set]
  by_cases hjk : j = k
  · rw [if_pos hjk, if_pos hjk, if_pos hj]
  · rw [if_neg hjk, if_neg hjk]
    by_cases hik : i = k
    · rw [if_pos hik, if_pos hik, if_pos hi]
    · rw [if_neg hik, if_neg hik]

theorem lswap_eqOutside {a b : Nat} (l : List α) (i j : Nat)
    (hia : a ≤ i) (hib : i < b) (hja : a ≤ j) (hjb : j < b) :
    eqOutside a b l (lswap l i j) := by
  by_cases hi : i < l.length
  · by_cases hj : j < l.length
    · refine ⟨lswap_length l i j, fun k hk => ?_⟩
      rw [lswap_getElem l i j k hi hj, if_neg (by omega), if_neg (by omega)]
    · rw [lswap_oob l i j (Or.inr (by omega))]
      exact eqOutside_refl a b l
  · rw [lswap_oob l i j (Or.inl (by omega))]
    exact eqOutside_refl a b l

theorem seg_getElem (l : List α) (a b k : Nat) :
    (seg l a b)[k]? = if k < b - a then l[a + k]? else none := by
  rw [seg, List.getElem?_take]
  by_cases h : k < b - a
  · rw [if_pos h, if_pos h, List.getElem?_drop]
  · rw [if_neg h, if_neg h]

theorem seg_decomp (l : List α) (a b : Nat) (hab : a ≤ b) :
    l = l.take a ++ seg l a b ++ l.drop b := by
  have h1 : seg l a b ++ l.drop b = l.drop a := by
    have h2 : l.drop b = (l.drop a).drop (b - a) := by
      rw [List.drop_drop]
      congr 1
      omega
    rw [h2, seg, List.take_append_drop]
  rw [List.append_assoc, h1, List.take_append_drop]

/-- A permutation that fixes everything outside `[a, b)` permutes the
`[a, b)` segment. -/
theorem seg_perm_of_eqOutside {a b : Nat} {l l' : List α} (hab : a ≤ b)
    (hperm : l' ~ l) (hout : eqOutside a b l l') : seg l' a b ~ seg l a b := by
  have htake : l'.take a = l.take a := by
    apply List.ext_getElem?
    intro n
    rw [List.getElem?_take, List.getElem?_take]
    by_cases h : n < a
    · rw [if_pos h, if_pos h, hout.2 n (Or.inl h)]
    · rw [if_neg h, if_neg h]
  have hdrop : l'.drop b = l.drop b := by
    apply List.ext_getElem?
    intro n
    rw [List.getElem?_drop, List.getElem?_drop, hout.2 (b + n) (Or.inr (by omega))]
  have hd' := seg_decomp l' a b hab
  have hd := seg_decomp l a b hab
  rw [hd', hd, htake, hdrop] at hperm
  rw [List.append_assoc, List.append_assoc] at hperm
  have h1 := (List.perm_append_left_iff (l.take a)).1 hperm
  exact (List.perm_append_right_iff (l.drop b)).1 h1

theorem mem_seg_of_index {l : List α} {a b i : Nat} (ha : a ≤ i) (hb : i < b)
    (hi : i < l.length) : l[i] ∈ seg l a b := by
  rw [List.mem_iff_getElem?]
  refine ⟨i - a, ?_⟩
  rw [seg_getElem, if_pos (by omega), show a + (i - a) = i by omega]
  exact List.getElem?_eq_getElem hi

theorem index_of_mem_seg {l : List α} {a b : Nat} {x : α} (h : x ∈ seg l a b) :
    ∃ i, a ≤ i ∧ i < b ∧ ∃ hi : i < l.length, l[i] = x := by
  rw [List.mem_iff_getElem?] at h
  obtain ⟨n, hn⟩ := h
  rw [seg_getElem] at hn
  by_cases hlt : n < b - a
  · rw [if_pos hlt] at hn
    have hlen : a + n < l.length := by
      by_contra hc
      rw [List.getElem?_eq_none (by omega)] at hn
      exact Option.noConfusion hn
    refine ⟨a + n, by omega, by omega, hlen, ?_⟩
    have := List.getElem?_eq_getElem hlen
    rw [this] at hn
    exact Option.some_inj.1 hn
  · rw [if_neg hlt] at hn
    exact Option.noConfusion hn

/-- Transport of a pointwise property of the `[a, b)` segment across an
operation that permutes the list while fixing everything outside
`[a, b)`. -/
theorem seg_transport {a b : Nat} {l l' : List α} (P : α → Prop) (hab : a ≤ b)
    (hperm : l' ~ l) (hout : eqOutside a b l l')
    (h : ∀ i, a ≤ i → i < b → ∀ hi : i < l.length, P l[i]) :
    ∀ i, a ≤ i → i < b → ∀ hi : i < l'.length, P l'[i] := by
  intro i ha hb' hi
  have hmem : l'[i] ∈ seg l' a b := mem_seg_of_index ha hb' hi
  have hmem2 : l'[i] ∈ seg l a b :=
    (seg_perm_of_eqOutside hab hperm hout).mem_iff.1 hmem
  obtain ⟨k, hka, hkb, hk, hkx⟩ := index_of_mem_seg hmem2
  exact hkx ▸ h k hka hkb hk

theorem kAt_lswap (key : α → Nat) (l : List α) (i j k : Nat)
    (hi : i < l.length) (hj : j < l.length) :
    kAt key (lswap l i j) k =
      if j = k then kAt key l i else if i = k then kAt key l j else kAt key l k := by
  rw [kAt, lswap_getElem l i j k hi hj]
  by_cases hjk : j = k
  · rw [if_pos hjk, if_pos hjk]
    rfl
  · rw [if_neg hjk, if_neg hjk]
    by_cases hik : i = k
    · rw [if_pos hik, if_pos hik]
      rfl
    · rw [if_neg hik, if_neg hik]
      rfl

theorem lessIdx_keyed (key : α → Nat) (l : List α) (i j : Nat)
    (hi : i < l.length) (hj : j < l.length) :
    lessIdx (keyLess key) l i j = true ↔ kAt key l j < kAt key l i := by
  have hi' := List.getElem?_eq_getElem hi
  have hj' := List.getElem?_eq_getElem hj
  simp [lessIdx, keyLess, kAt, hi', hj']

/-- Bubble-up phase of insertion sort: if all pairs `(p, q)` with
`a ≤ p < q ≤ i`, `q ≠ j` are already descending, running the inner loop
from position `j` makes `[a, i + 1)` fully descending, touching only
`[a, i + 1)`. -/
theorem insertionSortInner_sorts (key : α → Nat) (a i : Nat) :
    ∀ (j : Nat) (l : List α), j ≤ i → i < l.length → a ≤ j →
    (∀ p q, a ≤ p → p < q → q ≤ i → q ≠ j → kAt key l q ≤ kAt key l p) →
    eqOutside a (i + 1) l (insertionSortInner (keyLess key) a l j) ∧
      sortedSeg key (insertionSortInner (keyLess key) a l j) a (i + 1) := by
  intro j
  induction j with
  | zero =>
    intro l hji hi haj hinv
    rw [insertionSortInner]
    refine ⟨eqOutside_refl _ _ _, ?_⟩
    intro p q hap hpq hq _
    exact hinv p q hap hpq (by omega) (by omega)
  | succ j ih =>
    intro l hji hi haj hinv
    rw [insertionSortInner]
    by_cases hcond : (decide (a < j + 1) && lessIdx (keyLess key) l (j + 1) j) = true
    · rw [if_pos hcond]
      rw [Bool.and_eq_true, decide_eq_true_eq] at hcond
      have hjlen : j < l.length := by omega
      have hj1len : j + 1 < l.length := by omega
      have hless : kAt key l j < kAt key l (j + 1) :=
        (lessIdx_keyed key l (j + 1) j hj1len hjlen).1 hcond.2
      have hswap := kAt_lswap key l (j + 1) j
      have hlen' : (lswap l (j + 1) j).length = l.length := lswap_length _ _ _
      have hinv' : ∀ p q, a ≤ p → p < q → q ≤ i → q ≠ j →
          kAt key (lswap l (j + 1) j) q ≤ kAt key (lswap l (j + 1) j) p := by
        intro p q hap hpq hqi hqj
        rw [hswap q hj1len hjlen, hswap p hj1len hjlen]
        by_cases hqj1 : q = j + 1
        · rw [if_neg (by omega), if_pos (by omega)]
          by_cases hpj : p = j
          · rw [if_pos (by omega)]
            omega
          · rw [if_neg (by omega), if_neg (by omega)]
            exact hinv p j hap (by omega) (by omega) (by omega)
        · rw [if_neg (by omega), if_neg (by omega)]
          by_cases hpj : p = j
          · rw [if_pos (by omega)]
            exact hinv (j + 1) q (by omega) (by omega) (by omega) (by omega)
          · by_cases hpj1 : p = j + 1
            · rw [if_neg (by omega), if_pos (by omega)]
              exact hinv j q (by omega) (by omega) (by omega) (by omega)
            · rw [if_neg (by omega), if_neg (by omega)]
              exact hinv p q hap hpq hqi (by omega)
      have hres := ih (lswap l (j + 1) j) (by omega) (by omega) (by omega) hinv'
      refine ⟨eqOutside_trans ?_ hres.1, hres.2⟩
      exact lswap_eqOutside l (j + 1) j (by omega) (by omega) (by omega) (by omega)
    · rw [if_neg hcond]
      rw [Bool.and_eq_true, decide_eq_true_eq] at hcond
      refine ⟨eqOutside_refl _ _ _, ?_⟩
      by_cases haj1 : a < j + 1
      · have hjlen : j < l.length := by omega
        have hj1len : j + 1 < l.length := by omega
        have hge : kAt key l (j + 1) ≤ kAt key l j := by
          have := (lessIdx_keyed key l (j + 1) j hj1len hjlen)
          by_cases hb : lessIdx (keyLess key) l (j + 1) j = true
          · exact absurd ⟨haj1, hb⟩ hcond
          · have := (this.not.1 hb)
            omega
        intro p q hap hpq hq _
        by_cases hqj1 : q = j + 1
        · subst hqj1
          by_cases hpj : p = j
          · subst hpj
            exact hge
          · calc kAt key l (j + 1) ≤ kAt key l j := hge
              _ ≤ kAt key l p := hinv p j hap (by omega) (by omega) (by omega)
        · exact hinv p q hap hpq (by omega) (by omega)
      · intro p q hap hpq hq _
        exact hinv p q hap hpq (by omega) (by omega)

theorem insertionSortAux_sorts (key : α → Nat) (a b : Nat) :
    ∀ (fuel : Nat) (l : List α) (i : Nat), a < i → b ≤ l.length → b - i ≤ fuel →
    sortedSeg key l a i →
    eqOutside a b l (insertionSortAux (keyLess key) a b fuel l i) ∧
      sortedSeg key (insertionSortAux (keyLess key) a b fuel l i) a b := by
  intro fuel
  induction fuel with
  | zero =>
    intro l i hai hb hfuel hsort
    rw [insertionSortAux]
    exact ⟨eqOutside_refl _ _ _, fun p q hap hpq hq hql =>
      hsort p q hap hpq (by omega) hql⟩
  | succ fuel ih =>
    intro l i hai hb hfuel hsort
    rw [insertionSortAux]
    by_cases hib : i < b
    · rw [if_pos hib]
      have hinner := insertionSortInner_sorts key a i i l (le_refl i) (by omega)
        (by omega) (fun p q hap hpq hqi hqj => hsort p q hap hpq (by omega) (by omega))
      have hlen' := hinner.1.1
      have hres := ih (insertionSortInner (keyLess key) a l i) (i + 1) (by omega)
        (by omega) (by omega)
        (fun p q hap hpq hq hql => hinner.2 p q hap hpq (by omega) hql)
      refine ⟨eqOutside_trans (eqOutside_mono (le_refl a) hib hinner.1) hres.1, hres.2⟩
    · rw [if_neg hib]
      exact ⟨eqOutside_refl _ _ _, fun p q hap hpq hq hql =>
        hsort p q hap hpq (by omega) hql⟩

/-- `insertionSort_func` makes `[a, b)` descending and touches nothing
outside it. -/
theorem insertionSortGo_sorts (key : α → Nat) (a b : Nat) (l : List α)
    (hb : b ≤ l.length) :
    eqOutside a b l (insertionSortGo (keyLess key) a b l) ∧
      sortedSeg key (insertionSortGo (keyLess key) a b l) a b := by
  rw [insertionSortGo]
  exact insertionSortAux_sorts key a b (b - a) l (a + 1) (by omega) hb (by omega)
    (fun p q hap hpq hq hql => by omega)

/-- Binary-heap property on the range `[first + lo, first + hi)` viewed as
an implicit tree: every parent with index at least `lo` has key at most its
children's keys (the comparator's "greatest" element, i.e. the least key,
sits at the root). -/
def heapProp (key : α → Nat) (l : List α) (first hi lo : Nat) : Prop :=
  ∀ p c, lo ≤ p → (c = 2 * p + 1 ∨ c = 2 * p + 2) → c < hi →
    kAt key l (first + p) ≤ kAt key l (first + c)

/-- In a heap rooted at `0`, the root key is at most every key. -/
theorem heapProp_root_min (key : α → Nat) (l : List α) (first hi : Nat)
    (h : heapProp key l first hi 0) :
    ∀ q, q < hi → kAt key l (first + 0) ≤ kAt key l (first + q) := by
  intro q
  induction q using Nat.strong_induction_on with
  | _ q ih =>
    intro hq
    cases q with
    | zero => exact le_refl _
    | succ q' =>
      have hparent : q' + 1 = 2 * (q' / 2) + 1 ∨ q' + 1 = 2 * (q' / 2) + 2 := by omega
      calc kAt key l (first + 0) ≤ kAt key l (first + q' / 2) :=
            ih (q' / 2) (by omega) (by omega)
        _ ≤ kAt key l (first + (q' + 1)) := h (q' / 2) (q' + 1) (by omega) hparent hq

/-- The `siftDown_func` walk: starting from `r`, with every parent other
than `r` (at or above `r0`) already heap-ordered, and — unless the walk is
at its origin — `r`'s children bounded below by `r`'s parent, the walk
restores the heap property from `r0` down, touching only
`[first + r0, first + hi)`. -/
theorem siftDownGo_walk (key : α → Nat) (first hi r0 : Nat) :
    ∀ (fuel : Nat) (r : Nat) (l : List α), r0 ≤ r → first + hi ≤ l.length →
    hi - r ≤ fuel →
    (∀ p c, r0 ≤ p → p ≠ r → (c = 2 * p + 1 ∨ c = 2 * p + 2) → c < hi →
      kAt key l (first + p) ≤ kAt key l (first + c)) →
    (r ≠ r0 → ∀ c, (c = 2 * r + 1 ∨ c = 2 * r + 2) → c < hi →
      kAt key l (first + (r - 1) / 2) ≤ kAt key l (first + c)) →
    eqOutside (first + r0) (first + hi) l (siftDownGo (keyLess key) first hi fuel l r) ∧
      heapProp key (siftDownGo (keyLess key) first hi fuel l r) first hi r0 := by
  intro fuel
  induction fuel with
  | zero =>
    intro r l hr0 hlen hfuel h1 h2
    rw [siftDownGo]
    refine ⟨eqOutside_refl _ _ _, fun p c hp hc hchi => ?_⟩
    by_cases hpr : p = r
    · omega
    · exact h1 p c hp hpr hc hchi
  | succ fuel ih =>
    intro r l hr0 hlen hfuel h1 h2
    rw [siftDownGo]
    by_cases hchild : 2 * r + 1 < hi
    · rw [if_pos hchild]
      set c0 := 2 * r + 1 with hc0
      have hrhi : r < hi := by omega
      have hrlen : first + r < l.length := by omega
      have hc0len : first + c0 < l.length := by omega
      -- the selected child and its two properties
      set csel := if (decide (c0 + 1 < hi) && lessIdx (keyLess key) l (first + c0)
        (first + c0 + 1)) = true then c0 + 1 else c0 with hcsel
      have hsel_is : csel = 2 * r + 1 ∨ csel = 2 * r + 2 := by
        rw [hcsel]
        split
        · right
          omega
        · left
          omega
      have hsel_lt : csel < hi := by
        rw [hcsel]
        split
        · rename_i hs
          rw [Bool.and_eq_true, decide_eq_true_eq] at hs
          omega
        · omega
      have hsellen : first + csel < l.length := by omega
      have hsel_min : ∀ oc, (oc = 2 * r + 1 ∨ oc = 2 * r + 2) → oc < hi →
          kAt key l (first + csel) ≤ kAt key l (first + oc) := by
        intro oc hoc hochi
        rw [hcsel]
        split
        · rename_i hs
          rw [Bool.and_eq_true, decide_eq_true_eq] at hs
          have hlt := (lessIdx_keyed key l (first + c0) (first + c0 + 1)
            (by omega) (by omega)).1 hs.2
          rcases hoc with hoc | hoc
          · rw [show first + c0 + 1 = first + (c0 + 1) by omega] at hlt
            subst hoc
            rw [show first + (2 * r + 1) = first + c0 from by rw [hc0]]
            omega
          · subst hoc
            rw [show first + (2 * r + 2) = first + c0 + 1 by omega]
        · rename_i hs
          rcases hoc with hoc | hoc
          · subst hoc
            exact le_refl _
          · have hnl : ¬ (lessIdx (keyLess key) l (first + c0) (first + c0 + 1) = true) := by
              intro hl
              exact hs (by rw [Bool.and_eq_true, decide_eq_true_eq]; exact ⟨by omega, hl⟩)
            have := (lessIdx_keyed key l (first + c0) (first + c0 + 1)
              (by omega) (by omega)).not.1 hnl
            subst hoc
            rw [show first + (2 * r + 2) = first + c0 + 1 by omega]
            omega
      by_cases hswap : lessIdx (keyLess key) l (first + r) (first + csel) = true
      · rw [if_pos hswap]
        have hlt := (lessIdx_keyed key l (first + r) (first + csel) hrlen hsellen).1 hswap
        set l' := lswap l (first + r) (first + csel) with hl'
        have hkat := kAt_lswap key l (first + r) (first + csel)
        have hlen' : l'.length = l.length := lswap_length _ _ _
        have hval : ∀ k, kAt key l' k =
            if first + csel = k then kAt key l (first + r)
            else if first + r = k then kAt key l (first + csel)
            else kAt key l k := fun k => hkat k hrlen hsellen
        have hne : r < csel := by omega
        have h1' : ∀ p c, r0 ≤ p → p ≠ csel → (c = 2 * p + 1 ∨ c = 2 * p + 2) →
            c < hi → kAt key l' (first + p) ≤ kAt key l' (first + c) := by
          intro p c hp hpc hc hchi'
          have hcp : p < c := by omega
          rw [hval, hval]
          by_cases hpr : p = r
          · subst hpr
            rw [if_neg (by omega), if_pos rfl]
            by_cases hcc : c = csel
            · rw [if_pos (by omega)]
              omega
            · rw [if_neg (by omega), if_neg (by omega)]
              exact hsel_min c hc hchi'
          · rw [if_neg (by omega), if_neg (by omega)]
            by_cases hcr : c = r
            · rw [if_neg (by omega), if_pos (by omega : first + r = first + c)]
              have hr0pos : r ≠ r0 := by omega
              have hpar : p = (r - 1) / 2 := by omega
              rw [hpar]
              exact h2 hr0pos csel hsel_is hsel_lt
            · by_cases hcc : c = csel
              · omega
              · rw [if_neg (by omega), if_neg (by omega)]
                exact h1 p c hp hpr hc hchi'
        have h2' : csel ≠ r0 → ∀ c, (c = 2 * csel + 1 ∨ c = 2 * csel + 2) →
            c < hi → kAt key l' (first + (csel - 1) / 2) ≤ kAt key l' (first + c) := by
          intro _ c hc hchi'
          have hpar : (csel - 1) / 2 = r := by omega
          rw [hpar, hval, hval]
          rw [if_neg (by omega), if_pos rfl, if_neg (by omega), if_neg (by omega)]
          exact h1 csel c (by omega) (by omega) hc hchi'
        have hres := ih csel l' (by omega) (by omega) (by omega) h1' h2'
        refine ⟨eqOutside_trans ?_ hres.1, hres.2⟩
        exact lswap_eqOutside l (first + r) (first + csel)
          (by omega) (by omega) (by omega) (by omega)
      · rw [if_neg hswap]
        have hge := (lessIdx_keyed key l (first + r) (first + csel) hrlen hsellen).not.1 hswap
        refine ⟨eqOutside_refl _ _ _, fun p c hp hc hchi' => ?_⟩
        by_cases hpr : p = r
        · rw [hpr]
          calc kAt key l (first + r) ≤ kAt key l (first + csel) := by omega
            _ ≤ kAt key l (first + c) := hsel_min c (by omega) hchi'
        · exact h1 p c hp hpr hc hchi'
    · rw [if_neg hchild]
      refine ⟨eqOutside_refl _ _ _, fun p c hp hc hchi' => ?_⟩
      by_cases hpr : p = r
      · omega
      · exact h1 p c hp hpr hc hchi'

theorem kAt_eq_getElem (key : α → Nat) (l : List α) (i : Nat) (hi : i < l.length) :
    kAt key l i = key l[i] := by
  rw [kAt, List.getElem?_eq_getElem hi]
  rfl

theorem heapBuildAux_heap (key : α → Nat) (first hi : Nat) :
    ∀ (k : Nat) (l : List α), first + hi ≤ l.length → heapProp key l first hi k →
    eqOutside first (first + hi) l (heapBuildAux (keyLess key) first hi l k) ∧
      heapProp key (heapBuildAux (keyLess key) first hi l k) first hi 0 := by
  intro k
  induction k with
  | zero =>
    intro l hlen hheap
    rw [heapBuildAux]
    exact ⟨eqOutside_refl _ _ _, hheap⟩
  | succ k ih =>
    intro l hlen hheap
    rw [heapBuildAux]
    have hwalk := siftDownGo_walk key first hi k hi k l (le_refl k) hlen (by omega)
      (fun p c hp _ hc hchi => hheap p c (by omega) hc hchi)
      (fun hk => absurd rfl hk)
    have hrec := ih _ (by rw [hwalk.1.1]; exact hlen) hwalk.2
    exact ⟨eqOutside_trans (eqOutside_mono (by omega) (le_refl _) hwalk.1) hrec.1, hrec.2⟩

theorem heapPopAux_sorts (key : α → Nat) (first hi0 : Nat) :
    ∀ (k : Nat) (l : List α), k ≤ hi0 → first + hi0 ≤ l.length →
    heapProp key l first k 0 →
    sortedSeg key l (first + k) (first + hi0) →
    (∀ q p, k ≤ q → q < hi0 → p < k → kAt key l (first + q) ≤ kAt key l (first + p)) →
    eqOutside first (first + hi0) l (heapPopAux (keyLess key) first l k) ∧
      sortedSeg key (heapPopAux (keyLess key) first l k) first (first + hi0) := by
  intro k
  induction k with
  | zero =>
    intro l hk hlen hheap hsuffix hcross
    rw [heapPopAux]
    exact ⟨eqOutside_refl _ _ _, fun i j hi hij hj hjl => hsuffix i j (by omega) hij hj hjl⟩
  | succ k ih =>
    intro l hk hlen hheap hsuffix hcross
    rw [heapPopAux]
    have hflen : first < l.length := by omega
    have hfklen : first + k < l.length := by omega
    have hrootmin := heapProp_root_min key l first (k + 1) hheap
    set l1 := lswap l first (first + k) with hl1
    have hlen1 : l1.length = l.length := lswap_length _ _ _
    have hval1 : ∀ x, kAt key l1 x =
        if first + k = x then kAt key l first
        else if first = x then kAt key l (first + k) else kAt key l x :=
      fun x => kAt_lswap key l first (first + k) x hflen hfklen
    have hwalk := siftDownGo_walk key first k 0 k 0 l1 (le_refl 0) (by omega) (by omega)
      (fun p c hp hp0 hc hchi => by
        rw [hval1 (first + p), hval1 (first + c),
          if_neg (show ¬ first + k = first + p by omega),
          if_neg (show ¬ first = first + p by omega),
          if_neg (show ¬ first + k = first + c by omega),
          if_neg (show ¬ first = first + c by omega)]
        exact hheap p c (by omega) hc (by omega))
      (fun h0 => absurd rfl h0)
    set l2 := siftDownGo (keyLess key) first k k l1 0 with hl2
    have hlen2 : l2.length = l1.length := hwalk.1.1
    have hkat2 : ∀ x, first + k ≤ x → kAt key l2 x = kAt key l1 x := by
      intro x hx
      rw [kAt, kAt, hwalk.1.2 x (Or.inr (by omega))]
    have hsuffix2 : sortedSeg key l2 (first + k) (first + hi0) := by
      intro i j hi hij hj hjl
      rw [hkat2 i (by omega), hkat2 j (by omega), hval1 i, hval1 j,
        if_neg (show ¬ first + k = j by omega), if_neg (show ¬ first = j by omega)]
      by_cases hik : first + k = i
      · rw [if_pos hik]
        have h := hcross (j - first) 0 (by omega) (by omega) (by omega)
        rw [show first + (j - first) = j by omega, Nat.add_zero] at h
        exact h
      · rw [if_neg hik, if_neg (show ¬ first = i by omega)]
        exact hsuffix i j (by omega) hij hj (by omega)
    have hcross2 : ∀ q p, k ≤ q → q < hi0 → p < k →
        kAt key l2 (first + q) ≤ kAt key l2 (first + p) := by
      intro q p hq hqhi hp
      have hq2 : kAt key l2 (first + q) = kAt key l1 (first + q) := hkat2 _ (by omega)
      have hbound1 : ∀ i, first ≤ i → i < first + k → ∀ hil : i < l1.length,
          kAt key l1 (first + q) ≤ key l1[i] := by
        intro i hia hib hil
        rw [← kAt_eq_getElem key l1 i hil, hval1 (first + q), hval1 i,
          if_neg (show ¬ first + k = i by omega)]
        by_cases hqk : q = k
        · rw [if_pos (show first + k = first + q by omega)]
          by_cases hif : first = i
          · rw [if_pos hif]
            have h := hrootmin k (by omega)
            rw [Nat.add_zero] at h
            exact h
          · rw [if_neg hif]
            have h := hrootmin (i - first) (by omega)
            rw [Nat.add_zero, show first + (i - first) = i by omega] at h
            exact h
        · rw [if_neg (show ¬ first + k = first + q by omega),
            if_neg (show ¬ first = first + q by omega)]
          by_cases hif : first = i
          · rw [if_pos hif]
            exact hcross q k (by omega) hqhi (by omega)
          · rw [if_neg hif]
            have h := hcross q (i - first) (by omega) hqhi (by omega)
            rw [show first + (i - first) = i by omega] at h
            exact h
      have htrans := seg_transport (fun x => kAt key l1 (first + q) ≤ key x)
        (show first ≤ first + k by omega)
        (siftDownGo_perm (keyLess key) first k k l1 0)
        ⟨hwalk.1.1, fun x hx => hwalk.1.2 x (by omega)⟩
        hbound1
      have hplen : first + p < l2.length := by omega
      have h := htrans (first + p) (by omega) (by omega) hplen
      rw [hq2, kAt_eq_getElem key l2 (first + p) hplen]
      exact h
    have hrec := ih l2 (by omega) (by omega) hwalk.2 hsuffix2 hcross2
    refine ⟨?_, hrec.2⟩
    have e1 : eqOutside first (first + hi0) l l1 :=
      lswap_eqOutside l first (first + k) (by omega) (by omega) (by omega) (by omega)
    have e2 : eqOutside first (first + hi0) l1 l2 :=
      eqOutside_mono (by omega) (by omega) hwalk.1
    exact eqOutside_trans (eqOutside_trans e1 e2) hrec.1

/-- `heapSort_func` makes `[a, b)` descending and touches nothing outside
it. -/
theorem heapSortGo_sorts (key : α → Nat) (a b : Nat) (l : List α)
    (hab : a ≤ b) (hb : b ≤ l.length) :
    eqOutside a b l (heapSortGo (keyLess key) a b l) ∧
      sortedSeg key (heapSortGo (keyLess key) a b l) a b := by
  rw [heapSortGo]
  have hbuild := heapBuildAux_heap key a (b - a) ((b - a - 1) / 2 + 1) l
    (by omega) (fun p c hp hc hchi => by omega)
  have hpop := heapPopAux_sorts key a (b - a) (b - a)
    (heapBuildAux (keyLess key) a (b - a) l ((b - a - 1) / 2 + 1))
    (le_refl _) (by rw [hbuild.1.1]; omega) hbuild.2
    (fun i j hi hij hj hjl => by omega)
    (fun q p hq hqhi hp => by omega)
  rw [show a + (b - a) = b by omega] at hbuild hpop
  exact ⟨eqOutside_trans hbuild.1 hpop.1, hpop.2⟩

theorem kAt_transport (key : α → Nat) {a b : Nat} {l l' : List α} (P : Nat → Prop)
    (hab : a ≤ b) (hperm : l' ~ l) (hout : eqOutside a b l l')
    (h : ∀ i, a ≤ i → i < b → i < l.length → P (kAt key l i)) :
    ∀ i, a ≤ i → i < b → i < l'.length → P (kAt key l' i) := by
  intro i hia hib hil
  have := seg_transport (fun x => P (key x)) hab hperm hout
    (fun k hka hkb hkl => by
      show P (key l[k])
      rw [← kAt_eq_getElem key l k hkl]
      exact h k hka hkb hkl)
    i hia hib hil
  rw [← kAt_eq_getElem key l' i hil] at this
  exact this

theorem partScanI_spec (key : α → Nat) (m : List α) (a j : Nat)
    (hj : j < m.length) (ha : a < m.length) :
    ∀ (fuel : Nat) (i0 : Nat), i0 ≤ j + 1 → j + 1 - i0 ≤ fuel →
    i0 ≤ partScanI (keyLess key) m a j fuel i0 ∧
      partScanI (keyLess key) m a j fuel i0 ≤ j + 1 ∧
      (∀ x, i0 ≤ x → x < partScanI (keyLess key) m a j fuel i0 →
        kAt key m a < kAt key m x) ∧
      (partScanI (keyLess key) m a j fuel i0 ≤ j →
        kAt key m (partScanI (keyLess key) m a j fuel i0) ≤ kAt key m a) := by
  intro fuel
  induction fuel with
  | zero =>
    intro i0 hi0 hfuel
    rw [partScanI]
    exact ⟨le_refl _, hi0, fun x hx hx' => absurd hx' (by omega), fun h => by omega⟩
  | succ fuel ih =>
    intro i0 hi0 hfuel
    rw [partScanI]
    by_cases hcond : (decide (i0 ≤ j) && lessIdx (keyLess key) m i0 a) = true
    · rw [if_pos hcond]
      rw [Bool.and_eq_true, decide_eq_true_eq] at hcond
      have hi0len : i0 < m.length := by omega
      have hlt := (lessIdx_keyed key m i0 a hi0len ha).1 hcond.2
      have hrec := ih (i0 + 1) (by omega) (by omega)
      refine ⟨by omega, hrec.2.1, ?_, hrec.2.2.2⟩
      intro x hx hx'
      by_cases hxi : x = i0
      · rw [hxi]
        exact hlt
      · exact hrec.2.2.1 x (by omega) hx'
    · rw [if_neg hcond]
      rw [Bool.and_eq_true, decide_eq_true_eq] at hcond
      refine ⟨le_refl _, hi0, fun x hx hx' => absurd hx' (by omega), fun hij => ?_⟩
      have hi0len : i0 < m.length := by omega
      by_cases hless : lessIdx (keyLess key) m i0 a = true
      · exact absurd ⟨hij, hless⟩ hcond
      · have := (lessIdx_keyed key m i0 a hi0len ha).not.1 hless
        omega

theorem partScanJ_spec (key : α → Nat) (m : List α) (a i : Nat)
    (ha : a < m.length) (hi1 : 1 ≤ i) :
    ∀ (fuel : Nat) (j0 : Nat), j0 < m.length → j0 + 2 - i ≤ fuel →
    partScanJ (keyLess key) m a i fuel j0 ≤ j0 ∧
      min j0 (i - 1) ≤ partScanJ (keyLess key) m a i fuel j0 ∧
      (∀ x, partScanJ (keyLess key) m a i fuel j0 < x → x ≤ j0 →
        kAt key m x ≤ kAt key m a) ∧
      (i ≤ partScanJ (keyLess key) m a i fuel j0 →
        kAt key m a < kAt key m (partScanJ (keyLess key) m a i fuel j0)) := by
  intro fuel
  induction fuel with
  | zero =>
    intro j0 hj0 hfuel
    rw [partScanJ]
    exact ⟨le_refl _, by omega, fun x hx hx' => by omega, fun h => by omega⟩
  | succ fuel ih =>
    intro j0 hj0 hfuel
    rw [partScanJ]
    by_cases hcond : (decide (i ≤ j0) && !lessIdx (keyLess key) m j0 a) = true
    · rw [if_pos hcond]
      rw [Bool.and_eq_true, decide_eq_true_eq, Bool.not_eq_true'] at hcond
      have hj0len : j0 < m.length := hj0
      have hge := (lessIdx_keyed key m j0 a hj0len ha).not.1 (by rw [hcond.2]; simp)
      have hrec := ih (j0 - 1) (by omega) (by omega)
      refine ⟨by omega, by omega, ?_, hrec.2.2.2⟩
      intro x hx hx'
      by_cases hxj : x = j0
      · rw [hxj]
        omega
      · exact hrec.2.2.1 x hx (by omega)
    · rw [if_neg hcond]
      rw [Bool.and_eq_true, decide_eq_true_eq, Bool.not_eq_true'] at hcond
      refine ⟨le_refl _, by omega, fun x hx hx' => by omega, fun hij => ?_⟩
      by_cases hless : lessIdx (keyLess key) m j0 a = false
      · exact absurd ⟨hij, hless⟩ hcond
      · have : lessIdx (keyLess key) m j0 a = true := by
          cases hb : lessIdx (keyLess key) m j0 a
          · exact absurd hb hless
          · rfl
        exact (lessIdx_keyed key m j0 a hj0 ha).1 this

theorem partLoop_spec (key : α → Nat) (a b : Nat) :
    ∀ (fuel : Nat) (m : List α) (i0 j0 : Nat),
    b ≤ m.length → a < i0 → j0 < b → a ≤ j0 → j0 + 2 - i0 ≤ fuel →
    (∀ x, a < x → x < i0 → kAt key m a < kAt key m x) →
    (∀ x, j0 < x → x < b → kAt key m x ≤ kAt key m a) →
    eqOutside i0 (j0 + 1) m (partLoop (keyLess key) a fuel m i0 j0).1 ∧
      a ≤ (partLoop (keyLess key) a fuel m i0 j0).2 ∧
      (partLoop (keyLess key) a fuel m i0 j0).2 ≤ j0 ∧
      (∀ x, a < x → x ≤ (partLoop (keyLess key) a fuel m i0 j0).2 →
        kAt key (partLoop (keyLess key) a fuel m i0 j0).1 a <
          kAt key (partLoop (keyLess key) a fuel m i0 j0).1 x) ∧
      (∀ x, (partLoop (keyLess key) a fuel m i0 j0).2 < x → x < b →
        kAt key (partLoop (keyLess key) a fuel m i0 j0).1 x ≤
          kAt key (partLoop (keyLess key) a fuel m i0 j0).1 a) := by
  intro fuel
  induction fuel with
  | zero =>
    intro m i0 j0 hb hai0 hj0b haj0 hfuel hr1 hr2
    rw [partLoop]
    exact ⟨eqOutside_refl _ _ _, haj0, le_refl _,
      fun x hx hx' => hr1 x hx (by omega), fun x hx hx' => hr2 x hx hx'⟩
  | succ fuel ih =>
    intro m i0 j0 hb hai0 hj0b haj0 hfuel hr1 hr2
    rw [partLoop]
    by_cases hrange : i0 ≤ j0 + 1
    · have hsi := partScanI_spec key m a j0 (by omega) (by omega) (j0 + 1) i0
        hrange (by omega)
      set i1 := partScanI (keyLess key) m a j0 (j0 + 1) i0 with hi1
      have hr1' : ∀ x, a < x → x < i1 → kAt key m a < kAt key m x := by
        intro x hx hx'
        by_cases hxi : x < i0
        · exact hr1 x hx hxi
        · exact hsi.2.2.1 x (by omega) hx'
      have hsj := partScanJ_spec key m a i1 (by omega) (by omega) (j0 + 1) j0
        (by omega) (by omega)
      set j1 := partScanJ (keyLess key) m a i1 (j0 + 1) j0 with hj1
      have hr2' : ∀ x, j1 < x → x < b → kAt key m x ≤ kAt key m a := by
        intro x hx hx'
        by_cases hxj : j0 < x
        · exact hr2 x hxj hx'
        · exact hsj.2.2.1 x hx (by omega)
      by_cases hstop : j1 < i1
      · rw [if_pos hstop]
        refine ⟨eqOutside_refl _ _ _, by omega, by omega, ?_, hr2'⟩
        intro x hx hx'
        exact hr1' x hx (by omega)
      · rw [if_neg hstop]
        have hi1len : i1 < m.length := by omega
        have hj1len : j1 < m.length := by omega
        have halen : a < m.length := by omega
        have hkswap := kAt_lswap key m i1 j1
        have hlen' : (lswap m i1 j1).length = m.length := lswap_length _ _ _
        have hka : kAt key (lswap m i1 j1) a = kAt key m a := by
          rw [hkswap a hi1len hj1len, if_neg (by omega), if_neg (by omega)]
        have hnr1 : ∀ x, a < x → x < i1 + 1 → kAt key (lswap m i1 j1) a <
            kAt key (lswap m i1 j1) x := by
          intro x hx hx'
          rw [hka, hkswap x hi1len hj1len]
          by_cases hxj : j1 = x
          · rw [if_pos hxj]
            have h := hsj.2.2.2 (by omega)
            rw [(by omega : j1 = i1)] at h
            exact h
          · rw [if_neg hxj]
            by_cases hxi : i1 = x
            · rw [if_pos hxi]
              exact hsj.2.2.2 (by omega)
            · rw [if_neg hxi]
              exact hr1' x hx (by omega)
        have hnr2 : ∀ x, j1 - 1 < x → x < b → kAt key (lswap m i1 j1) x ≤
            kAt key (lswap m i1 j1) a := by
          intro x hx hx'
          rw [hka, hkswap x hi1len hj1len]
          by_cases hxj : j1 = x
          · rw [if_pos hxj]
            exact hsi.2.2.2 (by omega)
          · rw [if_neg hxj]
            by_cases hxi : i1 = x
            · omega
            · rw [if_neg hxi]
              exact hr2' x (by omega) hx'
        have hrec := ih (lswap m i1 j1) (i1 + 1) (j1 - 1) (by omega) (by omega)
          (by omega) (by omega) (by omega) hnr1 hnr2
        have hframe : eqOutside i0 (j0 + 1) m (lswap m i1 j1) :=
          lswap_eqOutside m i1 j1 (by omega) (by omega) (by omega) (by omega)
        refine ⟨eqOutside_trans hframe
          (eqOutside_mono (by omega) (by omega) hrec.1), by omega, by omega,
          hrec.2.2.2.1, fun x hx hx' => hrec.2.2.2.2 x hx hx'⟩
    · have hscan1 : partScanI (keyLess key) m a j0 (j0 + 1) i0 = i0 := by
        rw [partScanI, if_neg (by simp; omega)]
      rw [hscan1]
      have hscan2 : partScanJ (keyLess key) m a i0 (j0 + 1) j0 = j0 := by
        rw [partScanJ, if_neg (by simp; omega)]
      rw [hscan2, if_pos (by omega)]
      refine ⟨eqOutside_refl _ _ _, haj0, le_refl _, ?_, hr2⟩
      intro x hx hx'
      exact hr1 x hx (by omega)

theorem partitionGo_spec (key : α → Nat) (l : List α) (a b pivot : Nat)
    (hab : a < b) (hb : b ≤ l.length) (hpa : a ≤ pivot) (hpb : pivot < b) :
    eqOutside a b l (partitionGo (keyLess key) l a b pivot).1 ∧
      a ≤ (partitionGo (keyLess key) l a b pivot).2.1 ∧
      (partitionGo (keyLess key) l a b pivot).2.1 < b ∧
      (∀ x, a ≤ x → x < (partitionGo (keyLess key) l a b pivot).2.1 →
        kAt key (partitionGo (keyLess key) l a b pivot).1
            (partitionGo (keyLess key) l a b pivot).2.1 <
          kAt key (partitionGo (keyLess key) l a b pivot).1 x) ∧
      (∀ x, (partitionGo (keyLess key) l a b pivot).2.1 < x → x < b →
        kAt key (partitionGo (keyLess key) l a b pivot).1 x ≤
          kAt key (partitionGo (keyLess key) l a b pivot).1
            (partitionGo (keyLess key) l a b pivot).2.1) := by
  have halen : a < l.length := by omega
  have hplen : pivot < l.length := by omega
  simp only [partitionGo]
  set m := lswap l a pivot with hm
  have hmlen : m.length = l.length := lswap_length _ _ _
  have hframe0 : eqOutside a b l m :=
    lswap_eqOutside l a pivot (by omega) (by omega) (by omega) (by omega)
  have hsi := partScanI_spec key m a (b - 1) (by omega) (by omega) b (a + 1)
    (by omega) (by omega)
  set i1 := partScanI (keyLess key) m a (b - 1) b (a + 1) with hi1
  have hsj := partScanJ_spec key m a i1 (by omega) (by omega) b (b - 1)
    (by omega) (by omega)
  set j1 := partScanJ (keyLess key) m a i1 b (b - 1) with hj1
  by_cases hstop : j1 < i1
  · rw [if_pos hstop]
    dsimp only
    have hj1len : j1 < m.length := by omega
    have halen' : a < m.length := by omega
    have hkswap := kAt_lswap key m j1 a
    have hv : kAt key (lswap m j1 a) j1 = kAt key m a := by
      rw [hkswap j1 hj1len halen']
      by_cases haj : a = j1
      · rw [if_pos haj, haj]
      · rw [if_neg haj, if_pos rfl]
    refine ⟨eqOutside_trans hframe0 (lswap_eqOutside m j1 a (by omega) (by omega)
      (by omega) (by omega)), by omega, by omega, ?_, ?_⟩
    · intro x hxa hxj
      rw [hv, hkswap x hj1len halen']
      by_cases hxa' : a = x
      · rw [if_pos hxa']
        exact hsi.2.2.1 j1 (by omega) (by omega)
      · rw [if_neg hxa', if_neg (show ¬ j1 = x by omega)]
        exact hsi.2.2.1 x (by omega) (by omega)
    · intro x hxj hxb
      rw [hv, hkswap x hj1len halen',
        if_neg (show ¬ a = x by omega), if_neg (show ¬ j1 = x by omega)]
      exact hsj.2.2.1 x hxj (by omega)
  · rw [if_neg hstop]
    dsimp only
    have hi1len : i1 < m.length := by omega
    have hj1len : j1 < m.length := by omega
    have hkswap := kAt_lswap key m i1 j1
    have hm2len : (lswap m i1 j1).length = m.length := lswap_length _ _ _
    have hka : kAt key (lswap m i1 j1) a = kAt key m a := by
      rw [hkswap a hi1len hj1len, if_neg (by omega), if_neg (by omega)]
    have hnr1 : ∀ x, a < x → x < i1 + 1 → kAt key (lswap m i1 j1) a <
        kAt key (lswap m i1 j1) x := by
      intro x hx hx'
      rw [hka, hkswap x hi1len hj1len]
      by_cases hxj : j1 = x
      · rw [if_pos hxj]
        have h := hsj.2.2.2 (by omega)
        rw [(by omega : j1 = i1)] at h
        exact h
      · rw [if_neg hxj]
        by_cases hxi : i1 = x
        · rw [if_pos hxi]
          exact hsj.2.2.2 (by omega)
        · rw [if_neg hxi]
          exact hsi.2.2.1 x hx (by omega)
    have hnr2 : ∀ x, j1 - 1 < x → x < b → kAt key (lswap m i1 j1) x ≤
        kAt key (lswap m i1 j1) a := by
      intro x hx hx'
      rw [hka, hkswap x hi1len hj1len]
      by_cases hxj : j1 = x
      · rw [if_pos hxj]
        exact hsi.2.2.2 (by omega)
      · rw [if_neg hxj]
        by_cases hxi : i1 = x
        · omega
        · rw [if_neg hxi]
          exact hsj.2.2.1 x (by omega) (by omega)
    have hloop := partLoop_spec key a b b (lswap m i1 j1) (i1 + 1) (j1 - 1)
      (by omega) (by omega) (by omega) (by omega) (by omega) hnr1 hnr2
    set lj := partLoop (keyLess key) a b (lswap m i1 j1) (i1 + 1) (j1 - 1) with hlj
    have hljlen : lj.1.length = l.length := by
      rw [hloop.1.1, hm2len, hmlen]
    have hkswap2 := kAt_lswap key lj.1 lj.2 a
    have hj2len : lj.2 < lj.1.length := by omega
    have halen2 : a < lj.1.length := by omega
    have hv2 : kAt key (lswap lj.1 lj.2 a) lj.2 = kAt key lj.1 a := by
      rw [hkswap2 lj.2 hj2len halen2]
      by_cases haj : a = lj.2
      · rw [if_pos haj, haj]
      · rw [if_neg haj, if_pos rfl]
    refine ⟨?_, by omega, by omega, ?_, ?_⟩
    · refine eqOutside_trans hframe0 (eqOutside_trans ?_ (eqOutside_trans
        (eqOutside_mono (by omega) (by omega) hloop.1) ?_))
      · exact lswap_eqOutside m i1 j1 (by omega) (by omega) (by omega) (by omega)
      · exact lswap_eqOutside lj.1 lj.2 a (by omega) (by omega) (by omega) (by omega)
    · intro x hxa hxj
      rw [hv2, hkswap2 x hj2len halen2]
      by_cases hxa' : a = x
      · rw [if_pos hxa']
        exact hloop.2.2.2.1 lj.2 (by omega) (le_refl _)
      · rw [if_neg hxa', if_neg (show ¬ lj.2 = x by omega)]
        exact hloop.2.2.2.1 x (by omega) (by omega)
    · intro x hxj hxb
      rw [hv2, hkswap2 x hj2len halen2,
        if_neg (show ¬ a = x by omega), if_neg (show ¬ lj.2 = x by omega)]
      exact hloop.2.2.2.2 x hxj hxb

theorem peScanI_spec (key : α → Nat) (m : List α) (a j : Nat)
    (hj : j < m.length) (ha : a < m.length) :
    ∀ (fuel : Nat) (i0 : Nat), i0 ≤ j + 1 → j + 1 - i0 ≤ fuel →
    i0 ≤ peScanI (keyLess key) m a j fuel i0 ∧
      peScanI (keyLess key) m a j fuel i0 ≤ j + 1 ∧
      (∀ x, i0 ≤ x → x < peScanI (keyLess key) m a j fuel i0 →
        kAt key m a ≤ kAt key m x) ∧
      (peScanI (keyLess key) m a j fuel i0 ≤ j →
        kAt key m (peScanI (keyLess key) m a j fuel i0) < kAt key m a) := by
  intro fuel
  induction fuel with
  | zero =>
    intro i0 hi0 hfuel
    rw [peScanI]
    exact ⟨le_refl _, hi0, fun x hx hx' => absurd hx' (by omega), fun h => by omega⟩
  | succ fuel ih =>
    intro i0 hi0 hfuel
    rw [peScanI]
    by_cases hcond : (decide (i0 ≤ j) && !lessIdx (keyLess key) m a i0) = true
    · rw [if_pos hcond]
      rw [Bool.and_eq_true, decide_eq_true_eq, Bool.not_eq_true'] at hcond
      have hi0len : i0 < m.length := by omega
      have hge := (lessIdx_keyed key m a i0 ha hi0len).not.1 (by rw [hcond.2]; simp)
      have hrec := ih (i0 + 1) (by omega) (by omega)
      refine ⟨by omega, hrec.2.1, ?_, hrec.2.2.2⟩
      intro x hx hx'
      by_cases hxi : x = i0
      · rw [hxi]
        omega
      · exact hrec.2.2.1 x (by omega) hx'
    · rw [if_neg hcond]
      rw [Bool.and_eq_true, decide_eq_true_eq, Bool.not_eq_true'] at hcond
      refine ⟨le_refl _, hi0, fun x hx hx' => absurd hx' (by omega), fun hij => ?_⟩
      have hi0len : i0 < m.length := by omega
      by_cases hless : lessIdx (keyLess key) m a i0 = false
      · exact absurd ⟨hij, hless⟩ hcond
      · have hlt : lessIdx (keyLess key) m a i0 = true := by
          cases hb : lessIdx (keyLess key) m a i0
          · exact absurd hb hless
          · rfl
        exact (lessIdx_keyed key m a i0 ha hi0len).1 hlt

theorem peScanJ_spec (key : α → Nat) (m : List α) (a i : Nat)
    (ha : a < m.length) (hi1 : 1 ≤ i) :
    ∀ (fuel : Nat) (j0 : Nat), j0 < m.length → j0 + 2 - i ≤ fuel →
    peScanJ (keyLess key) m a i fuel j0 ≤ j0 ∧
      min j0 (i - 1) ≤ peScanJ (keyLess key) m a i fuel j0 ∧
      (∀ x, peScanJ (keyLess key) m a i fuel j0 < x → x ≤ j0 →
        kAt key m x < kAt key m a) ∧
      (i ≤ peScanJ (keyLess key) m a i fuel j0 →
        kAt key m a ≤ kAt key m (peScanJ (keyLess key) m a i fuel j0)) := by
  intro fuel
  induction fuel with
  | zero =>
    intro j0 hj0 hfuel
    rw [peScanJ]
    exact ⟨le_refl _, by omega, fun x hx hx' => by omega, fun h => by omega⟩
  | succ fuel ih =>
    intro j0 hj0 hfuel
    rw [peScanJ]
    by_cases hcond : (decide (i ≤ j0) && lessIdx (keyLess key) m a j0) = true
    · rw [if_pos hcond]
      rw [Bool.and_eq_true, decide_eq_true_eq] at hcond
      have hlt := (lessIdx_keyed key m a j0 ha hj0).1 hcond.2
      have hrec := ih (j0 - 1) (by omega) (by omega)
      refine ⟨by omega, by omega, ?_, hrec.2.2.2⟩
      intro x hx hx'
      by_cases hxj : x = j0
      · rw [hxj]
        exact hlt
      · exact hrec.2.2.1 x hx (by omega)
    · rw [if_neg hcond]
      rw [Bool.and_eq_true, decide_eq_true_eq] at hcond
      refine ⟨le_refl _, by omega, fun x hx hx' => by omega, fun hij => ?_⟩
      by_cases hless : lessIdx (keyLess key) m a j0 = true
      · exact absurd ⟨hij, hless⟩ hcond
      · have := (lessIdx_keyed key m a j0 ha hj0).not.1 hless
        omega

theorem peLoop_spec (key : α → Nat) (a b : Nat) :
    ∀ (fuel : Nat) (m : List α) (i0 j0 : Nat),
    b ≤ m.length → a < i0 → j0 < b → a ≤ j0 → i0 ≤ j0 + 1 → j0 + 2 - i0 ≤ fuel →
    (∀ x, a < x → x < i0 → kAt key m a ≤ kAt key m x) →
    (∀ x, j0 < x → x < b → kAt key m x < kAt key m a) →
    eqOutside i0 (j0 + 1) m (peLoop (keyLess key) a fuel m i0 j0).1 ∧
      a < (peLoop (keyLess key) a fuel m i0 j0).2 ∧
      (peLoop (keyLess key) a fuel m i0 j0).2 ≤ j0 + 1 ∧
      (∀ x, a < x → x < (peLoop (keyLess key) a fuel m i0 j0).2 →
        kAt key (peLoop (keyLess key) a fuel m i0 j0).1 a ≤
          kAt key (peLoop (keyLess key) a fuel m i0 j0).1 x) ∧
      (∀ x, (peLoop (keyLess key) a fuel m i0 j0).2 ≤ x → x < b →
        kAt key (peLoop (keyLess key) a fuel m i0 j0).1 x <
          kAt key (peLoop (keyLess key) a fuel m i0 j0).1 a) := by
  intro fuel
  induction fuel with
  | zero =>
    intro m i0 j0 hb hai0 hj0b haj0 hi0j hfuel hr1 hr2
    exact absurd hfuel (by omega)
  | succ fuel ih =>
    intro m i0 j0 hb hai0 hj0b haj0 hi0j hfuel hr1 hr2
    rw [peLoop]
    have hsi := peScanI_spec key m a j0 (by omega) (by omega) (j0 + 1) i0
      hi0j (by omega)
    set i1 := peScanI (keyLess key) m a j0 (j0 + 1) i0 with hi1
    have hr1' : ∀ x, a < x → x < i1 → kAt key m a ≤ kAt key m x := by
      intro x hx hx'
      by_cases hxi : x < i0
      · exact hr1 x hx hxi
      · exact hsi.2.2.1 x (by omega) hx'
    have hsj := peScanJ_spec key m a i1 (by omega) (by omega) (j0 + 1) j0
      (by omega) (by omega)
    set j1 := peScanJ (keyLess key) m a i1 (j0 + 1) j0 with hj1
    have hr2' : ∀ x, j1 < x → x < b → kAt key m x < kAt key m a := by
      intro x hx hx'
      by_cases hxj : j0 < x
      · exact hr2 x hxj hx'
      · exact hsj.2.2.1 x hx (by omega)
    by_cases hstop : j1 < i1
    · rw [if_pos hstop]
      refine ⟨eqOutside_refl _ _ _, by omega, by omega, ?_, ?_⟩
      · intro x hx hx'
        exact hr1' x hx hx'
      · intro x hx hx'
        exact hr2' x (by omega) hx'
    · rw [if_neg hstop]
      have hne : i1 ≠ j1 := by
        intro he
        have h1 := hsi.2.2.2 (by omega)
        have h2 := hsj.2.2.2 (by omega)
        rw [← he] at h2
        omega
      have hi1len : i1 < m.length := by omega
      have hj1len : j1 < m.length := by omega
      have halen : a < m.length := by omega
      have hkswap := kAt_lswap key m i1 j1
      have hlen' : (lswap m i1 j1).length = m.length := lswap_length _ _ _
      have hka : kAt key (lswap m i1 j1) a = kAt key m a := by
        rw [hkswap a hi1len hj1len, if_neg (by omega), if_neg (by omega)]
      have hnr1 : ∀ x, a < x → x < i1 + 1 → kAt key (lswap m i1 j1) a ≤
          kAt key (lswap m i1 j1) x := by
        intro x hx hx'
        rw [hka, hkswap x hi1len hj1len]
        by_cases hxj : j1 = x
        · omega
        · rw [if_neg hxj]
          by_cases hxi : i1 = x
          · rw [if_pos hxi]
            exact hsj.2.2.2 (by omega)
          · rw [if_neg hxi]
            exact hr1' x hx (by omega)
      have hnr2 : ∀ x, j1 - 1 < x → x < b → kAt key (lswap m i1 j1) x <
          kAt key (lswap m i1 j1) a := by
        intro x hx hx'
        rw [hka, hkswap x hi1len hj1len]
        by_cases hxj : j1 = x
        · rw [if_pos hxj]
          exact hsi.2.2.2 (by omega)
        · rw [if_neg hxj]
          by_cases hxi : i1 = x
          · omega
          · rw [if_neg hxi]
            exact hr2' x (by omega) hx'
      have hrec := ih (lswap m i1 j1) (i1 + 1) (j1 - 1) (by omega) (by omega)
        (by omega) (by omega) (by omega) (by omega) hnr1 hnr2
      have hframe : eqOutside i0 (j0 + 1) m (lswap m i1 j1) :=
        lswap_eqOutside m i1 j1 (by omega) (by omega) (by omega) (by omega)
      refine ⟨eqOutside_trans hframe
        (eqOutside_mono (by omega) (by omega) hrec.1), by omega, by omega,
        hrec.2.2.2.1, fun x hx hx' => hrec.2.2.2.2 x hx hx'⟩

theorem partitionEqualGo_spec (key : α → Nat) (l : List α) (a b pivot : Nat)
    (hab : a < b) (hb : b ≤ l.length) (hpa : a ≤ pivot) (hpb : pivot < b) :
    eqOutside a b l (partitionEqualGo (keyLess key) l a b pivot).1 ∧
      a < (partitionEqualGo (keyLess key) l a b pivot).2 ∧
      (partitionEqualGo (keyLess key) l a b pivot).2 ≤ b ∧
      kAt key (partitionEqualGo (keyLess key) l a b pivot).1 a = kAt key l pivot ∧
      (∀ x, a ≤ x → x < (partitionEqualGo (keyLess key) l a b pivot).2 →
        kAt key (partitionEqualGo (keyLess key) l a b pivot).1 a ≤
          kAt key (partitionEqualGo (keyLess key) l a b pivot).1 x) ∧
      (∀ x, (partitionEqualGo (keyLess key) l a b pivot).2 ≤ x → x < b →
        kAt key (partitionEqualGo (keyLess key) l a b pivot).1 x <
          kAt key (partitionEqualGo (keyLess key) l a b pivot).1 a) := by
  have halen : a < l.length := by omega
  have hplen : pivot < l.length := by omega
  simp only [partitionEqualGo]
  set m := lswap l a pivot with hm
  have hmlen : m.length = l.length := lswap_length _ _ _
  have hframe0 : eqOutside a b l m :=
    lswap_eqOutside l a pivot (by omega) (by omega) (by omega) (by omega)
  have hva : kAt key m a = kAt key l pivot := by
    rw [hm, kAt_lswap key l a pivot a halen hplen]
    by_cases hpa' : pivot = a
    · rw [if_pos hpa', hpa']
    · rw [if_neg hpa', if_pos rfl]
  have hloop := peLoop_spec key a b b m (a + 1) (b - 1) (by omega) (by omega)
    (by omega) (by omega) (by omega) (by omega)
    (fun x hx hx' => absurd hx' (by omega))
    (fun x hx hx' => absurd hx (by omega))
  set pe := peLoop (keyLess key) a b m (a + 1) (b - 1) with hpe
  have hka : kAt key pe.1 a = kAt key m a := by
    rw [kAt, kAt, hloop.1.2 a (Or.inl (by omega))]
  refine ⟨eqOutside_trans hframe0 (eqOutside_mono (by omega) (by omega) hloop.1),
    hloop.2.1, by omega, by rw [hka, hva], ?_, ?_⟩
  · intro x hxa hxm
    by_cases hxa' : x = a
    · rw [hxa']
    · exact hloop.2.2.2.1 x (by omega) hxm
  · intro x hxm hxb
    exact hloop.2.2.2.2 x hxm hxb

theorem kAt_chain (key : α → Nat) (l : List α) (a c : Nat)
    (h : ∀ k, a < k → k < c → kAt key l k ≤ kAt key l (k - 1)) :
    ∀ (d p q : Nat), q - p ≤ d → a ≤ p → p ≤ q → q < c →
    kAt key l q ≤ kAt key l p := by
  intro d
  induction d with
  | zero =>
    intro p q hd hap hpq hqc
    rw [show q = p from by omega]
  | succ d ih =>
    intro p q hd hap hpq hqc
    by_cases hqp : q = p
    · rw [hqp]
    · have h1 := h q (by omega) hqc
      have h2 := ih p (q - 1) (by omega) hap (by omega) (by omega)
      omega

theorem piAdvance_spec (key : α → Nat) (l : List α) (b : Nat) (hb : b ≤ l.length) :
    ∀ (fuel i0 : Nat), i0 ≤ b → b - i0 ≤ fuel →
    i0 ≤ piAdvance (keyLess key) l b fuel i0 ∧
      piAdvance (keyLess key) l b fuel i0 ≤ b ∧
      (∀ x, i0 ≤ x → x < piAdvance (keyLess key) l b fuel i0 →
        kAt key l x ≤ kAt key l (x - 1)) ∧
      (piAdvance (keyLess key) l b fuel i0 < b →
        kAt key l (piAdvance (keyLess key) l b fuel i0 - 1) <
          kAt key l (piAdvance (keyLess key) l b fuel i0)) := by
  intro fuel
  induction fuel with
  | zero =>
    intro i0 hi0 hfuel
    rw [piAdvance]
    exact ⟨le_refl _, hi0, fun x hx hx' => absurd hx' (by omega), fun h => by omega⟩
  | succ fuel ih =>
    intro i0 hi0 hfuel
    rw [piAdvance]
    by_cases hib : i0 < b
    · rw [if_pos hib]
      have hi0len : i0 < l.length := by omega
      have hi0len' : i0 - 1 < l.length := by omega
      by_cases hcond : lessIdx (keyLess key) l i0 (i0 - 1) = true
      · rw [if_pos hcond]
        exact ⟨le_refl _, by omega, fun x hx hx' => absurd hx' (by omega),
          fun _ => (lessIdx_keyed key l i0 (i0 - 1) hi0len hi0len').1 hcond⟩
      · rw [if_neg hcond]
        have hge : kAt key l i0 ≤ kAt key l (i0 - 1) := by
          have := (lessIdx_keyed key l i0 (i0 - 1) hi0len hi0len').not.1 hcond
          omega
        have hrec := ih (i0 + 1) (by omega) (by omega)
        refine ⟨by omega, hrec.2.1, ?_, hrec.2.2.2⟩
        intro x hx hx'
        by_cases hxi : x = i0
        · rw [hxi]
          exact hge
        · exact hrec.2.2.1 x (by omega) hx'
    · rw [if_neg hib]
      exact ⟨le_refl _, hi0, fun x hx hx' => absurd hx' (by omega),
        fun h => absurd h hib⟩

theorem piShiftRight_frame (less : α → α → Bool) (b : Nat) :
    ∀ (fuel : Nat) (l : List α) (j : Nat), 1 ≤ j →
    eqOutside (j - 1) b l (piShiftRight less b fuel l j) := by
  intro fuel
  induction fuel with
  | zero =>
    intro l j h1
    rw [piShiftRight]
    exact eqOutside_refl _ _ _
  | succ fuel ih =>
    intro l j h1
    rw [piShiftRight]
    by_cases hjb : j < b
    · rw [if_pos hjb]
      by_cases hcond : lessIdx less l j (j - 1) = true
      · rw [if_pos hcond]
        have hrec := ih (lswap l j (j - 1)) (j + 1) (by omega)
        refine eqOutside_trans ?_ (eqOutside_mono (by omega) (le_refl _) hrec)
        exact lswap_eqOutside l j (j - 1) (by omega) (by omega) (by omega) (by omega)
      · rw [if_neg hcond]
        exact eqOutside_refl _ _ _
    · rw [if_neg hjb]
      exact eqOutside_refl _ _ _

theorem piShiftLeft_spec (key : α → Nat) (a i : Nat) :
    ∀ (j : Nat) (l : List α), j ≤ i → i < l.length → a ≤ j →
    (∀ p q, a ≤ p → p < q → q ≤ i → q ≠ j → kAt key l q ≤ kAt key l p) →
    (0 < a → ∀ x, a ≤ x → x ≤ i → kAt key l x ≤ kAt key l (a - 1)) →
    eqOutside a (i + 1) l (piShiftLeft (keyLess key) l j) ∧
      sortedSeg key (piShiftLeft (keyLess key) l j) a (i + 1) := by
  intro j
  induction j with
  | zero =>
    intro l hji hi haj hinv hlb
    rw [piShiftLeft]
    exact ⟨eqOutside_refl _ _ _, fun p q hap hpq hq _ =>
      hinv p q hap hpq (by omega) (by omega)⟩
  | succ j ih =>
    intro l hji hi haj hinv hlb
    rw [piShiftLeft]
    by_cases hcond : lessIdx (keyLess key) l (j + 1) j = true
    · rw [if_pos hcond]
      have hjlen : j < l.length := by omega
      have hj1len : j + 1 < l.length := by omega
      have hless : kAt key l j < kAt key l (j + 1) :=
        (lessIdx_keyed key l (j + 1) j hj1len hjlen).1 hcond
      by_cases haj' : a ≤ j
      · have hswap := kAt_lswap key l (j + 1) j
        have hinv' : ∀ p q, a ≤ p → p < q → q ≤ i → q ≠ j →
            kAt key (lswap l (j + 1) j) q ≤ kAt key (lswap l (j + 1) j) p := by
          intro p q hap hpq hqi hqj
          rw [hswap q hj1len hjlen, hswap p hj1len hjlen]
          by_cases hqj1 : q = j + 1
          · rw [if_neg (by omega), if_pos (by omega)]
            by_cases hpj : p = j
            · rw [if_pos (by omega)]
              omega
            · rw [if_neg (by omega), if_neg (by omega)]
              exact hinv p j hap (by omega) (by omega) (by omega)
          · rw [if_neg (by omega), if_neg (by omega)]
            by_cases hpj : p = j
            · rw [if_pos (by omega)]
              exact hinv (j + 1) q (by omega) (by omega) (by omega) (by omega)
            · by_cases hpj1 : p = j + 1
              · rw [if_neg (by omega), if_pos (by omega)]
                exact hinv j q (by omega) (by omega) (by omega) (by omega)
              · rw [if_neg (by omega), if_neg (by omega)]
                exact hinv p q hap hpq hqi (by omega)
        have hlb' : 0 < a → ∀ x, a ≤ x → x ≤ i →
            kAt key (lswap l (j + 1) j) x ≤ kAt key (lswap l (j + 1) j) (a - 1) := by
          intro ha0 x hax hxi
          rw [hswap x hj1len hjlen, hswap (a - 1) hj1len hjlen,
            if_neg (show ¬ j = a - 1 by omega), if_neg (show ¬ j + 1 = a - 1 by omega)]
          by_cases hxj : j = x
          · rw [if_pos hxj]
            exact hlb ha0 (j + 1) (by omega) (by omega)
          · rw [if_neg hxj]
            by_cases hxj1 : j + 1 = x
            · rw [if_pos hxj1]
              exact hlb ha0 j (by omega) (by omega)
            · rw [if_neg hxj1]
              exact hlb ha0 x hax hxi
        have hlen' : (lswap l (j + 1) j).length = l.length := lswap_length _ _ _
        have hres := ih (lswap l (j + 1) j) (by omega) (by omega) haj' hinv' hlb'
        refine ⟨eqOutside_trans ?_ hres.1, hres.2⟩
        exact lswap_eqOutside l (j + 1) j (by omega) (by omega) (by omega) (by omega)
      · have ha0 : 0 < a := by omega
        have hcontra := hlb ha0 (j + 1) (by omega) (by omega)
        rw [show a - 1 = j from by omega] at hcontra
        exact absurd hcontra (by omega)
    · rw [if_neg hcond]
      have hjlen : j < l.length := by omega
      have hj1len : j + 1 < l.length := by omega
      have hge : kAt key l (j + 1) ≤ kAt key l j := by
        have := (lessIdx_keyed key l (j + 1) j hj1len hjlen).not.1 hcond
        omega
      refine ⟨eqOutside_refl _ _ _, ?_⟩
      intro p q hap hpq hq hql
      by_cases hqj1 : q = j + 1
      · subst hqj1
        by_cases hpj : p = j
        · subst hpj
          exact hge
        · calc kAt key l (j + 1) ≤ kAt key l j := hge
            _ ≤ kAt key l p := hinv p j hap (by omega) (by omega) (by omega)
      · exact hinv p q hap hpq (by omega) (by omega)

theorem piLoop_spec (key : α → Nat) (a b : Nat) :
    ∀ (steps : Nat) (l : List α) (i0 : Nat),
    b ≤ l.length → a < i0 → i0 ≤ b →
    (∀ k, a < k → k < i0 → kAt key l k ≤ kAt key l (k - 1)) →
    (0 < a → ∀ x, a ≤ x → x < b → kAt key l x ≤ kAt key l (a - 1)) →
    eqOutside a b l (piLoop (keyLess key) a b l i0 steps).1 ∧
      ((piLoop (keyLess key) a b l i0 steps).2 = true →
        sortedSeg key (piLoop (keyLess key) a b l i0 steps).1 a b) := by
  intro steps
  induction steps with
  | zero =>
    intro l i0 hb hai hib hadj hlb
    rw [piLoop]
    exact ⟨eqOutside_refl _ _ _, fun h => Bool.noConfusion h⟩
  | succ steps ih =>
    intro l i0 hb hai hib hadj hlb
    rw [piLoop]
    have hadv := piAdvance_spec key l b hb b i0 hib (by omega)
    set i1 := piAdvance (keyLess key) l b b i0 with hi1def
    have hadj1 : ∀ k, a < k → k < i1 → kAt key l k ≤ kAt key l (k - 1) := by
      intro k hak hki
      by_cases hki0 : k < i0
      · exact hadj k hak hki0
      · exact hadv.2.2.1 k (by omega) hki
    by_cases hib1 : i1 = b
    · rw [if_pos hib1]
      refine ⟨eqOutside_refl _ _ _, fun _ => ?_⟩
      intro p q hap hpq hqb hql
      exact kAt_chain key l a b (fun k hak hkb => hadj1 k hak (by omega)) q p q
        (by omega) hap (by omega) hqb
    · rw [if_neg hib1]
      by_cases hlen50 : b - a < 50
      · rw [if_pos hlen50]
        exact ⟨eqOutside_refl _ _ _, fun h => Bool.noConfusion h⟩
      · rw [if_neg hlen50]
        simp only []
        have hi1b : i1 < b := by omega
        have hai1 : a < i1 := by omega
        have hi1len : i1 < l.length := by omega
        have hi1len' : i1 - 1 < l.length := by omega
        have hswap1 := kAt_lswap key l i1 (i1 - 1)
        set m1 := lswap l i1 (i1 - 1) with hm1
        have hm1len : m1.length = l.length := lswap_length _ _ _
        have hm1perm : m1 ~ l := lswap_perm l i1 (i1 - 1)
        have hm1out : eqOutside a b l m1 :=
          lswap_eqOutside l i1 (i1 - 1) (by omega) (by omega) (by omega) (by omega)
        have hcommon : ∀ m : List α, m.length = l.length → m ~ l →
            eqOutside a b l m →
            (∀ k, a < k → k < i1 → kAt key m k ≤ kAt key m (k - 1)) →
            eqOutside a b l (piLoop (keyLess key) a b m i1 steps).1 ∧
              ((piLoop (keyLess key) a b m i1 steps).2 = true →
                sortedSeg key (piLoop (keyLess key) a b m i1 steps).1 a b) := by
          intro m hmlen hmperm hmout hmadj
          have hlbm : 0 < a → ∀ x, a ≤ x → x < b →
              kAt key m x ≤ kAt key m (a - 1) := by
            intro ha0 x hax hxb
            have hbound := kAt_transport key (fun v => v ≤ kAt key l (a - 1))
              (show a ≤ b by omega) hmperm hmout
              (fun y hay hyb hyl => hlb ha0 y hay hyb) x hax hxb (by omega)
            have h2 : kAt key m (a - 1) = kAt key l (a - 1) := by
              rw [kAt, kAt, hmout.2 (a - 1) (Or.inl (by omega))]
            rw [h2]
            exact hbound
          have hrec := ih m i1 (by omega) hai1 (by omega) hmadj hlbm
          exact ⟨eqOutside_trans hmout hrec.1, hrec.2⟩
        have hSRstage : ∀ m2 : List α, m2.length = l.length → m2 ~ l →
            eqOutside a b l m2 →
            (∀ k, a < k → k < i1 → kAt key m2 k ≤ kAt key m2 (k - 1)) →
            eqOutside a b l (piLoop (keyLess key) a b
              (if 2 ≤ b - i1 then piShiftRight (keyLess key) b b m2 (i1 + 1)
               else m2) i1 steps).1 ∧
              ((piLoop (keyLess key) a b
                (if 2 ≤ b - i1 then piShiftRight (keyLess key) b b m2 (i1 + 1)
                 else m2) i1 steps).2 = true →
                sortedSeg key (piLoop (keyLess key) a b
                  (if 2 ≤ b - i1 then piShiftRight (keyLess key) b b m2 (i1 + 1)
                   else m2) i1 steps).1 a b) := by
          intro m2 hm2len hm2perm hm2out hm2adj
          by_cases hsr : 2 ≤ b - i1
          · rw [if_pos hsr]
            have hSR : eqOutside i1 b m2
                (piShiftRight (keyLess key) b b m2 (i1 + 1)) :=
              piShiftRight_frame (keyLess key) b b m2 (i1 + 1) (by omega)
            set m3 := piShiftRight (keyLess key) b b m2 (i1 + 1) with hm3
            have hm3len : m3.length = l.length := by
              rw [hSR.1, hm2len]
            have hm3perm : m3 ~ l :=
              (piShiftRight_perm (keyLess key) b b m2 (i1 + 1)).trans hm2perm
            have hm3out : eqOutside a b l m3 :=
              eqOutside_trans hm2out (eqOutside_mono (by omega) (le_refl _) hSR)
            have hm3adj : ∀ k, a < k → k < i1 →
                kAt key m3 k ≤ kAt key m3 (k - 1) := by
              intro k hak hki
              have h1 : kAt key m3 k = kAt key m2 k := by
                rw [kAt, kAt, hSR.2 k (Or.inl hki)]
              have h2 : kAt key m3 (k - 1) = kAt key m2 (k - 1) := by
                rw [kAt, kAt, hSR.2 (k - 1) (Or.inl (by omega))]
              rw [h1, h2]
              exact hm2adj k hak hki
            exact hcommon m3 hm3len hm3perm hm3out hm3adj
          · rw [if_neg hsr]
            exact hcommon m2 hm2len hm2perm hm2out hm2adj
        by_cases hsl : 2 ≤ i1 - a
        · rw [if_pos hsl]
          have hinvSL : ∀ p q, a ≤ p → p < q → q ≤ i1 - 1 → q ≠ i1 - 1 →
              kAt key m1 q ≤ kAt key m1 p := by
            intro p q hap hpq hqi hqj
            have hq : kAt key m1 q = kAt key l q := by
              rw [hm1, hswap1 q hi1len hi1len', if_neg (by omega),
                if_neg (by omega)]
            have hp : kAt key m1 p = kAt key l p := by
              rw [hm1, hswap1 p hi1len hi1len', if_neg (by omega),
                if_neg (by omega)]
            rw [hq, hp]
            exact kAt_chain key l a i1 hadj1 q p q (by omega) hap (by omega)
              (by omega)
          have hlbSL : 0 < a → ∀ x, a ≤ x → x ≤ i1 - 1 →
              kAt key m1 x ≤ kAt key m1 (a - 1) := by
            intro ha0 x hax hxi
            rw [hm1, hswap1 x hi1len hi1len', hswap1 (a - 1) hi1len hi1len',
              if_neg (show ¬ i1 - 1 = a - 1 by omega),
              if_neg (show ¬ i1 = a - 1 by omega)]
            by_cases h1 : i1 - 1 = x
            · rw [if_pos h1]
              exact hlb ha0 i1 (by omega) (by omega)
            · rw [if_neg h1]
              by_cases h2 : i1 = x
              · rw [if_pos h2]
                exact hlb ha0 (i1 - 1) (by omega) (by omega)
              · rw [if_neg h2]
                exact hlb ha0 x hax (by omega)
          have hSL := piShiftLeft_spec key a (i1 - 1) (i1 - 1) m1 (le_refl _)
            (by omega) (by omega) hinvSL hlbSL
          rw [show i1 - 1 + 1 = i1 from by omega] at hSL
          set m2 := piShiftLeft (keyLess key) m1 (i1 - 1) with hm2def
          have hm2len : m2.length = l.length := by
            rw [hSL.1.1, hm1len]
          have hm2perm : m2 ~ l :=
            (piShiftLeft_perm (keyLess key) m1 (i1 - 1)).trans hm1perm
          have hm2out : eqOutside a b l m2 :=
            eqOutside_trans hm1out (eqOutside_mono (le_refl _) (by omega) hSL.1)
          have hm2adj : ∀ k, a < k → k < i1 →
              kAt key m2 k ≤ kAt key m2 (k - 1) := by
            intro k hak hki
            exact hSL.2 (k - 1) k (by omega) (by omega) hki (by omega)
          exact hSRstage m2 hm2len hm2perm hm2out hm2adj
        · rw [if_neg hsl]
          exact hSRstage m1 hm1len hm1perm hm1out
            (fun k hak hki => absurd hki (by omega))

/-- `partialInsertionSort_func` touches only `[a, b)`, and a `true` result
certifies the range descending; the last hypothesis is the pdqsort loop
invariant that everything in the range is at most the element just before
it. -/
theorem partialInsSortGo_spec (key : α → Nat) (a b : Nat) (l : List α)
    (hb : b ≤ l.length) (hab : a < b)
    (hlb : 0 < a → ∀ x, a ≤ x → x < b → kAt key l x ≤ kAt key l (a - 1)) :
    eqOutside a b l (partialInsSortGo (keyLess key) a b l).1 ∧
      ((partialInsSortGo (keyLess key) a b l).2 = true →
        sortedSeg key (partialInsSortGo (keyLess key) a b l).1 a b) := by
  rw [partialInsSortGo]
  exact piLoop_spec key a b 5 l (a + 1) hb (by omega) (by omega)
    (fun k hak hki => absurd hak (by omega)) hlb

theorem order2Go_cases (less : α → α → Bool) (l : List α) (x y s : Nat) :
    order2Go less l x y s = (y, x, s + 1) ∨ order2Go less l x y s = (x, y, s) := by
  rw [order2Go]
  by_cases h : lessIdx less l y x = true
  · rw [if_pos h]
    exact Or.inl rfl
  · rw [if_neg h]
    exact Or.inr rfl

theorem order2Go_fst (less : α → α → Bool) (l : List α) (x y s : Nat) :
    (order2Go less l x y s).1 = x ∨ (order2Go less l x y s).1 = y := by
  rcases order2Go_cases less l x y s with h | h <;> rw [h]
  · exact Or.inr rfl
  · exact Or.inl rfl

theorem order2Go_snd (less : α → α → Bool) (l : List α) (x y s : Nat) :
    (order2Go less l x y s).2.1 = x ∨ (order2Go less l x y s).2.1 = y := by
  rcases order2Go_cases less l x y s with h | h <;> rw [h]
  · exact Or.inl rfl
  · exact Or.inr rfl

theorem medianGo_mem (less : α → α → Bool) (l : List α) (a b c swaps : Nat) :
    (medianGo less l a b c swaps).1 = a ∨ (medianGo less l a b c swaps).1 = b ∨
      (medianGo less l a b c swaps).1 = c := by
  rw [medianGo]
  rcases order2Go_cases less l a b swaps with h1 | h1 <;> rw [h1] <;> dsimp only []
  · rcases order2Go_snd less l b (order2Go less l a c (swaps + 1)).1
        (order2Go less l a c (swaps + 1)).2.2 with h2 | h2
    · exact Or.inr (Or.inl h2)
    · rcases order2Go_fst less l a c (swaps + 1) with h3 | h3
      · exact Or.inl (h2.trans h3)
      · exact Or.inr (Or.inr (h2.trans h3))
  · rcases order2Go_snd less l a (order2Go less l b c swaps).1
        (order2Go less l b c swaps).2.2 with h2 | h2
    · exact Or.inl h2
    · rcases order2Go_fst less l b c swaps with h3 | h3
      · exact Or.inr (Or.inl (h2.trans h3))
      · exact Or.inr (Or.inr (h2.trans h3))

theorem medianAdjGo_mem (less : α → α → Bool) (l : List α) (x swaps : Nat) :
    (medianAdjGo less l x swaps).1 = x - 1 ∨ (medianAdjGo less l x swaps).1 = x ∨
      (medianAdjGo less l x swaps).1 = x + 1 := by
  rw [medianAdjGo]
  exact medianGo_mem less l (x - 1) x (x + 1) swaps

/-- The pivot chosen by `choosePivot_func` always lies inside `[a, b)`. -/
theorem choosePivotGo_range (less : α → α → Bool) (l : List α) (a b : Nat)
    (hab : a < b) :
    a ≤ (choosePivotGo less l a b).1 ∧ (choosePivotGo less l a b).1 < b := by
  have key : ∀ p : Nat × Nat, a ≤ p.1 ∧ p.1 < b →
      a ≤ (if p.2 = 0 then (p.1, SortedHint.increasing)
        else if p.2 = 12 then (p.1, SortedHint.decreasing)
        else (p.1, SortedHint.unknown)).1 ∧
      (if p.2 = 0 then (p.1, SortedHint.increasing)
        else if p.2 = 12 then (p.1, SortedHint.decreasing)
        else (p.1, SortedHint.unknown)).1 < b := by
    intro p hp
    obtain ⟨h1, h2⟩ := hp
    by_cases hp0 : p.2 = 0
    · rw [if_pos hp0]
      exact ⟨h1, h2⟩
    · rw [if_neg hp0]
      by_cases hp12 : p.2 = 12
      · rw [if_pos hp12]
        exact ⟨h1, h2⟩
      · rw [if_neg hp12]
        exact ⟨h1, h2⟩
  have h3 : ∀ u v w s, a ≤ u → u < b → a ≤ v → v < b → a ≤ w → w < b →
      a ≤ (medianGo less l u v w s).1 ∧ (medianGo less l u v w s).1 < b := by
    intro u v w s hu1 hu2 hv1 hv2 hw1 hw2
    rcases medianGo_mem less l u v w s with h | h | h <;> rw [h]
    · exact ⟨hu1, hu2⟩
    · exact ⟨hv1, hv2⟩
    · exact ⟨hw1, hw2⟩
  have hadj : ∀ x s, a + 1 ≤ x → x + 1 < b →
      a ≤ (medianAdjGo less l x s).1 ∧ (medianAdjGo less l x s).1 < b := by
    intro x s h1x h2x
    rcases medianAdjGo_mem less l x s with h | h | h <;> rw [h] <;>
      exact ⟨by omega, by omega⟩
  simp only [choosePivotGo]
  refine key _ ?_
  by_cases h8 : 8 ≤ b - a
  · rw [if_pos h8]
    by_cases h50 : 50 ≤ b - a
    · rw [if_pos h50]
      dsimp only []
      refine h3 _ _ _ _ ?_ ?_ ?_ ?_ ?_ ?_
      · exact (hadj _ _ (by omega) (by omega)).1
      · exact (hadj _ _ (by omega) (by omega)).2
      · exact (hadj _ _ (by omega) (by omega)).1
      · exact (hadj _ _ (by omega) (by omega)).2
      · exact (hadj _ _ (by omega) (by omega)).1
      · exact (hadj _ _ (by omega) (by omega)).2
    · rw [if_neg h50]
      dsimp only []
      exact h3 _ _ _ _ (by omega) (by omega) (by omega) (by omega) (by omega)
        (by omega)
  · rw [if_neg h8]
    dsimp only []
    exact ⟨by omega, by omega⟩

theorem reverseRangeGo_frame (a b : Nat) :
    ∀ (fuel : Nat) (l : List α) (i j : Nat), a ≤ i → j < b →
    eqOutside a b l (reverseRangeGo fuel l i j) := by
  intro fuel
  induction fuel with
  | zero =>
    intro l i j h1 h2
    rw [reverseRangeGo]
    exact eqOutside_refl _ _ _
  | succ fuel ih =>
    intro l i j h1 h2
    rw [reverseRangeGo]
    by_cases hij : i < j
    · rw [if_pos hij]
      refine eqOutside_trans ?_ (ih (lswap l i j) (i + 1) (j - 1) (by omega) (by omega))
      exact lswap_eqOutside l i j h1 (by omega) (by omega) (by omega)
    · rw [if_neg hij]
      exact eqOutside_refl _ _ _

theorem bitsLenAux_bounds : ∀ (fuel n : Nat), n ≤ fuel → 0 < n →
    n < 2 ^ bitsLenAux fuel n ∧ 2 ^ bitsLenAux fuel n ≤ 2 * n := by
  intro fuel
  induction fuel with
  | zero =>
    intro n h1 h2
    omega
  | succ fuel ih =>
    intro n h1 h2
    rw [bitsLenAux, if_neg (by omega)]
    by_cases hn1 : n = 1
    · subst hn1
      have h0 : bitsLenAux fuel 0 = 0 := by
        cases fuel with
        | zero => rw [bitsLenAux]
        | succ f => rw [bitsLenAux, if_pos rfl]
      rw [show (1 : Nat) / 2 = 0 from rfl, h0]
      norm_num
    · have hrec := ih (n / 2) (by omega) (by omega)
      rw [pow_succ]
      omega

theorem bitsLen_bounds (n : Nat) (h : 0 < n) :
    n < 2 ^ bitsLen n ∧ 2 ^ bitsLen n ≤ 2 * n :=
  bitsLenAux_bounds n n (le_refl n) h

theorem breakOther_lt (len r : Nat) (h8 : 8 ≤ len) :
    (if len ≤ Nat.land r (2 ^ bitsLen len % 2 ^ 64 - 1) then
      Nat.land r (2 ^ bitsLen len % 2 ^ 64 - 1) - len
     else Nat.land r (2 ^ bitsLen len % 2 ^ 64 - 1)) < len := by
  have hland : Nat.land r (2 ^ bitsLen len % 2 ^ 64 - 1) ≤
      2 ^ bitsLen len % 2 ^ 64 - 1 := Nat.and_le_right
  by_cases hw : 2 ^ bitsLen len < 2 ^ 64
  · have hmod : 2 ^ bitsLen len % 2 ^ 64 = 2 ^ bitsLen len := Nat.mod_eq_of_lt hw
    have hb := bitsLen_bounds len (by omega)
    rw [hmod] at hland ⊢
    split <;> omega
  · have h64 : 64 ≤ bitsLen len :=
      (Nat.pow_le_pow_iff_right (show (1 : Nat) < 2 from by omega)).1 (by omega)
    have hmod : 2 ^ bitsLen len % 2 ^ 64 = 0 := by
      rw [show bitsLen len = 64 + (bitsLen len - 64) from by omega, pow_add,
        Nat.mul_mod_right]
    rw [hmod] at hland ⊢
    split <;> omega

/-- `breakPatterns_func` only swaps inside `[a, b)`. -/
theorem breakPatternsGo_frame (l : List α) (a b : Nat) :
    eqOutside a b l (breakPatternsGo l a b) := by
  simp only [breakPatternsGo]
  by_cases h8 : 8 ≤ b - a
  · rw [if_pos h8]
    have ho1 := breakOther_lt (b - a) (xorshiftNext ((b - a) % 2 ^ 64)) h8
    have ho2 := breakOther_lt (b - a)
      (xorshiftNext (xorshiftNext ((b - a) % 2 ^ 64))) h8
    have ho3 := breakOther_lt (b - a)
      (xorshiftNext (xorshiftNext (xorshiftNext ((b - a) % 2 ^ 64)))) h8
    refine eqOutside_trans (lswap_eqOutside l _ _ ?_ ?_ ?_ ?_)
      (eqOutside_trans (lswap_eqOutside _ _ _ ?_ ?_ ?_ ?_)
        (lswap_eqOutside _ _ _ ?_ ?_ ?_ ?_)) <;> omega
  · rw [if_neg h8]
    exact eqOutside_refl _ _ _

theorem leftBound_transport (key : α → Nat) {a b : Nat} {l l' : List α}
    (hperm : l' ~ l) (hout : eqOutside a b l l') (hab : a ≤ b) (hb : b ≤ l.length)
    (hlb : 0 < a → ∀ x, a ≤ x → x < b → kAt key l x ≤ kAt key l (a - 1)) :
    0 < a → ∀ x, a ≤ x → x < b → kAt key l' x ≤ kAt key l' (a - 1) := by
  intro ha0 x hax hxb
  have h1 := kAt_transport key (fun v => v ≤ kAt key l (a - 1)) hab hperm hout
    (fun y hay hyb hyl => hlb ha0 y hay hyb) x hax hxb
    (by rw [hout.1]; omega)
  have h2 : kAt key l' (a - 1) = kAt key l (a - 1) := by
    rw [kAt, kAt, hout.2 (a - 1) (Or.inl (by omega))]
  rw [h2]
  exact h1

theorem concat_sorted (key : α → Nat) (l : List α) (a mid b : Nat)
    (ham : a ≤ mid) (hmb : mid < b)
    (hleft : sortedSeg key l a mid)
    (hright : sortedSeg key l (mid + 1) b)
    (hG1 : ∀ x, a ≤ x → x < mid → kAt key l mid < kAt key l x)
    (hG2 : ∀ x, mid < x → x < b → kAt key l x ≤ kAt key l mid) :
    sortedSeg key l a b := by
  intro i j hai hij hjb hjl
  by_cases hjmid : j < mid
  · exact hleft i j hai hij hjmid hjl
  · by_cases hjmid2 : j = mid
    · subst hjmid2
      exact le_of_lt (hG1 i hai hij)
    · have hj : mid < j := by omega
      have h2 := hG2 j hj hjb
      by_cases himid : i < mid
      · exact le_trans h2 (le_of_lt (hG1 i hai himid))
      · by_cases himid2 : i = mid
        · subst himid2
          exact h2
        · exact hright i j (by omega) hij hjb hjl

theorem equalblock_sorted (key : α → Nat) (l : List α) (a mid b : Nat)
    (hEq : ∀ x, a ≤ x → x < mid → kAt key l x = kAt key l a)
    (hright : sortedSeg key l mid b)
    (hLt : ∀ x, mid ≤ x → x < b → kAt key l x < kAt key l a) :
    sortedSeg key l a b := by
  intro i j hai hij hjb hjl
  by_cases hjmid : j < mid
  · rw [hEq j (by omega) hjmid, hEq i hai (by omega)]
  · by_cases himid : i < mid
    · rw [hEq i hai himid]
      exact le_of_lt (hLt j (by omega) hjb)
    · exact hright i j (by omega) hij hjb hjl

theorem pdqBreak_frame (wb : Bool) (l : List α) (a b limit : Nat) :
    eqOutside a b l (pdqBreak wb l a b limit).1 := by
  unfold pdqBreak
  split
  · exact breakPatternsGo_frame l a b
  · exact eqOutside_refl _ _ _

theorem pdqReverse_frame (l : List α) (a b : Nat) (pc : Nat × SortedHint)
    (hab : a < b) :
    eqOutside a b l (pdqReverse l a b pc).1 := by
  unfold pdqReverse
  split
  · exact reverseRangeGo_frame a b b l a (b - 1) (le_refl _) (by omega)
  · exact eqOutside_refl _ _ _

theorem pdqReverse_pivot (l : List α) (a b : Nat) (pc : Nat × SortedHint)
    (h1 : a ≤ pc.1) (h2 : pc.1 < b) :
    a ≤ (pdqReverse l a b pc).2.1 ∧ (pdqReverse l a b pc).2.1 < b := by
  unfold pdqReverse
  split
  · dsimp only []
    omega
  · dsimp only []
    exact ⟨h1, h2⟩

theorem pdqPartialStep_spec (key : α → Nat) (a b : Nat) (wb wp : Bool)
    (l : List α) (hint : SortedHint) (hb : b ≤ l.length) (hab : a < b)
    (hlb : 0 < a → ∀ x, a ≤ x → x < b → kAt key l x ≤ kAt key l (a - 1)) :
    eqOutside a b l (pdqPartialStep (keyLess key) a b wb wp l hint).1 ∧
      ((pdqPartialStep (keyLess key) a b wb wp l hint).2 = true →
        sortedSeg key (pdqPartialStep (keyLess key) a b wb wp l hint).1 a b) := by
  unfold pdqPartialStep
  split
  · exact partialInsSortGo_spec key a b l hb hab hlb
  · exact ⟨eqOutside_refl _ _ _, fun h => Bool.noConfusion h⟩

theorem pdq_two_sided_left_first (key : α → Nat) (m r1 R : List α)
    (a mid b : Nat) (hb : b ≤ m.length) (hama : a ≤ mid) (hmb : mid < b)
    (hG1 : ∀ x, a ≤ x → x < mid → kAt key m mid < kAt key m x)
    (hG2 : ∀ x, mid < x → x < b → kAt key m x ≤ kAt key m mid)
    (hperm1 : r1 ~ m) (hout1 : eqOutside a mid m r1)
    (hs1 : sortedSeg key r1 a mid)
    (hperm2 : R ~ r1) (hout2 : eqOutside (mid + 1) b r1 R)
    (hs2 : sortedSeg key R (mid + 1) b) :
    eqOutside a b m R ∧ sortedSeg key R a b := by
  have hlen1 : r1.length = m.length := hout1.1
  have hlen2 : R.length = r1.length := hout2.1
  have hmidR : kAt key R mid = kAt key m mid := by
    have e1 : R[mid]? = r1[mid]? := hout2.2 mid (Or.inl (by omega))
    have e2 : r1[mid]? = m[mid]? := hout1.2 mid (Or.inr (by omega))
    rw [kAt, kAt, e1, e2]
  have hG1R : ∀ x, a ≤ x → x < mid → kAt key R mid < kAt key R x := by
    intro x hax hxm
    have hxR : kAt key R x = kAt key r1 x := by
      rw [kAt, kAt, hout2.2 x (Or.inl (by omega))]
    have hstep := kAt_transport key (fun v => kAt key m mid < v) hama hperm1 hout1
      (fun y hay hym hyl => hG1 y hay hym) x hax hxm (by omega)
    rw [hxR, hmidR]
    exact hstep
  have hG2R : ∀ x, mid < x → x < b → kAt key R x ≤ kAt key R mid := by
    intro x hmx hxb
    have hstep := kAt_transport key (fun v => v ≤ kAt key m mid)
      (show mid + 1 ≤ b from by omega) hperm2 hout2
      (fun y hay hyb hyl => by
        have hy1 : kAt key r1 y = kAt key m y := by
          rw [kAt, kAt, hout1.2 y (Or.inr (by omega))]
        rw [hy1]
        exact hG2 y (by omega) hyb)
      x (by omega) hxb (by omega)
    rw [hmidR]
    exact hstep
  have hleftR : sortedSeg key R a mid := by
    intro i j hai hij hjm hjl
    have ei : kAt key R i = kAt key r1 i := by
      rw [kAt, kAt, hout2.2 i (Or.inl (by omega))]
    have ej : kAt key R j = kAt key r1 j := by
      rw [kAt, kAt, hout2.2 j (Or.inl (by omega))]
    rw [ei, ej]
    exact hs1 i j hai hij hjm (by omega)
  refine ⟨eqOutside_trans (eqOutside_mono (le_refl _) (by omega) hout1)
    (eqOutside_mono (by omega) (le_refl _) hout2), ?_⟩
  exact concat_sorted key R a mid b hama hmb hleftR hs2 hG1R hG2R

theorem pdq_two_sided_right_first (key : α → Nat) (m r1 R : List α)
    (a mid b : Nat) (hb : b ≤ m.length) (hama : a ≤ mid) (hmb : mid < b)
    (hG1 : ∀ x, a ≤ x → x < mid → kAt key m mid < kAt key m x)
    (hG2 : ∀ x, mid < x → x < b → kAt key m x ≤ kAt key m mid)
    (hperm1 : r1 ~ m) (hout1 : eqOutside (mid + 1) b m r1)
    (hs1 : sortedSeg key r1 (mid + 1) b)
    (hperm2 : R ~ r1) (hout2 : eqOutside a mid r1 R)
    (hs2 : sortedSeg key R a mid) :
    eqOutside a b m R ∧ sortedSeg key R a b := by
  have hlen1 : r1.length = m.length := hout1.1
  have hlen2 : R.length = r1.length := hout2.1
  have hmidR : kAt key R mid = kAt key m mid := by
    have e1 : R[mid]? = r1[mid]? := hout2.2 mid (Or.inr (by omega))
    have e2 : r1[mid]? = m[mid]? := hout1.2 mid (Or.inl (by omega))
    rw [kAt, kAt, e1, e2]
  have hrightR : sortedSeg key R (mid + 1) b := by
    intro i j hai hij hjb hjl
    have ei : kAt key R i = kAt key r1 i := by
      rw [kAt, kAt, hout2.2 i (Or.inr (by omega))]
    have ej : kAt key R j = kAt key r1 j := by
      rw [kAt, kAt, hout2.2 j (Or.inr (by omega))]
    rw [ei, ej]
    exact hs1 i j hai hij hjb (by omega)
  have hG2R : ∀ x, mid < x → x < b → kAt key R x ≤ kAt key R mid := by
    intro x hmx hxb
    have hxR : kAt key R x = kAt key r1 x := by
      rw [kAt, kAt, hout2.2 x (Or.inr (by omega))]
    have hstep := kAt_transport key (fun v => v ≤ kAt key m mid)
      (show mid + 1 ≤ b from by omega) hperm1 hout1
      (fun y hay hyb hyl => hG2 y (by omega) hyb) x (by omega) hxb (by omega)
    rw [hxR, hmidR]
    exact hstep
  have hG1R : ∀ x, a ≤ x → x < mid → kAt key R mid < kAt key R x := by
    intro x hax hxm
    have hstep := kAt_transport key (fun v => kAt key m mid < v) hama hperm2 hout2
      (fun y hay hym hyl => by
        have hy1 : kAt key r1 y = kAt key m y := by
          rw [kAt, kAt, hout1.2 y (Or.inl (by omega))]
        rw [hy1]
        exact hG1 y hay hym)
      x hax hxm (by omega)
    rw [hmidR]
    exact hstep
  refine ⟨eqOutside_trans (eqOutside_mono (by omega) (le_refl _) hout1)
    (eqOutside_mono (le_refl _) (by omega) hout2), ?_⟩
  exact concat_sorted key R a mid b hama hmb hs2 hrightR hG1R hG2R

/-- `pdqsort_func` sorts `[a, b)` descending (with respect to the key
behind the comparator) and touches nothing outside the range, provided
everything in the range is at most the element just before it (the
invariant Go maintains for every recursive call; it is vacuous at `a = 0`).
-/
theorem pdqsortLoop_sorts (key : α → Nat) :
    ∀ (fuel : Nat) (l : List α) (a b limit : Nat) (wb wp : Bool),
    b ≤ l.length → b - a ≤ fuel →
    (0 < a → ∀ x, a ≤ x → x < b → kAt key l x ≤ kAt key l (a - 1)) →
    eqOutside a b l (pdqsortLoop (keyLess key) fuel l a b limit wb wp) ∧
      sortedSeg key (pdqsortLoop (keyLess key) fuel l a b limit wb wp) a b := by
  intro fuel
  induction fuel with
  | zero =>
    intro l a b limit wb wp hb hfuel hlb
    rw [pdqsortLoop]
    exact ⟨eqOutside_refl _ _ _, fun i j hai hij hjb hjl => by omega⟩
  | succ fuel ih =>
    intro l a b limit wb wp hb hfuel hlb
    rw [pdqsortLoop]
    simp only []
    by_cases h12 : b - a ≤ 12
    · rw [if_pos h12]
      exact insertionSortGo_sorts key a b l hb
    · rw [if_neg h12]
      have hab : a < b := by omega
      by_cases hlim : limit = 0
      · rw [if_pos hlim]
        exact heapSortGo_sorts key a b l (by omega) hb
      · rw [if_neg hlim]
        set p1 := pdqBreak wb l a b limit with hp1def
        have hp1frame : eqOutside a b l p1.1 := by
          rw [hp1def]
          exact pdqBreak_frame wb l a b limit
        have hp1perm : p1.1 ~ l := by
          rw [hp1def]
          exact pdqBreak_perm wb l a b limit
        have hp1len : p1.1.length = l.length := hp1frame.1
        set pc := choosePivotGo (keyLess key) p1.1 a b with hpcdef
        have hpcr : a ≤ pc.1 ∧ pc.1 < b := by
          rw [hpcdef]
          exact choosePivotGo_range (keyLess key) p1.1 a b hab
        set p2 := pdqReverse p1.1 a b pc with hp2def
        have hp2frame : eqOutside a b p1.1 p2.1 := by
          rw [hp2def]
          exact pdqReverse_frame p1.1 a b pc hab
        have hp2perm : p2.1 ~ p1.1 := by
          rw [hp2def]
          exact pdqReverse_perm p1.1 a b pc
        have hp2len : p2.1.length = l.length := hp2frame.1.trans hp1len
        have hpivot : a ≤ p2.2.1 ∧ p2.2.1 < b := by
          rw [hp2def]
          exact pdqReverse_pivot p1.1 a b pc hpcr.1 hpcr.2
        have hlb2 := leftBound_transport key (hp2perm.trans hp1perm)
          (eqOutside_trans hp1frame hp2frame) (by omega) hb hlb
        set p3 := pdqPartialStep (keyLess key) a b wb wp p2.1 p2.2.2 with hp3def
        have hp3spec : eqOutside a b p2.1 p3.1 ∧
            (p3.2 = true → sortedSeg key p3.1 a b) := by
          rw [hp3def]
          exact pdqPartialStep_spec key a b wb wp p2.1 p2.2.2 (by omega) hab hlb2
        have hp3perm : p3.1 ~ p2.1 := by
          rw [hp3def]
          exact pdqPartialStep_perm (keyLess key) a b wb wp p2.1 p2.2.2
        have houtl3 : eqOutside a b l p3.1 :=
          eqOutside_trans hp1frame (eqOutside_trans hp2frame hp3spec.1)
        have hperml3 : p3.1 ~ l := hp3perm.trans (hp2perm.trans hp1perm)
        have hlen3 : p3.1.length = l.length := houtl3.1
        have hlb3 := leftBound_transport key hperml3 houtl3 (by omega) hb hlb
        by_cases hstop : p3.2 = true
        · rw [if_pos hstop]
          exact ⟨houtl3, hp3spec.2 hstop⟩
        · rw [if_neg hstop]
          by_cases hguard :
              (decide (0 < a) && !lessIdx (keyLess key) p3.1 (a - 1) p2.2.1) = true
          · rw [if_pos hguard]
            rw [Bool.and_eq_true, decide_eq_true_eq, Bool.not_eq_true'] at hguard
            obtain ⟨ha0, hless⟩ := hguard
            have hvp : kAt key p3.1 (a - 1) ≤ kAt key p3.1 p2.2.1 := by
              have := (lessIdx_keyed key p3.1 (a - 1) p2.2.1 (by omega)
                (by omega)).not.1 (by rw [hless]; simp)
              omega
            have hvp2 : kAt key p3.1 p2.2.1 ≤ kAt key p3.1 (a - 1) :=
              hlb3 ha0 p2.2.1 hpivot.1 hpivot.2
            have hpe := partitionEqualGo_spec key p3.1 a b p2.2.1 hab (by omega)
              hpivot.1 hpivot.2
            set pe := partitionEqualGo (keyLess key) p3.1 a b p2.2.1 with hpedef
            obtain ⟨hpeout, hpea, hpeb, hpeva, hpeE1, hpeE2⟩ := hpe
            have hpeperm : pe.1 ~ p3.1 := by
              rw [hpedef]
              exact partitionEqualGo_perm (keyLess key) p3.1 a b p2.2.1
            have hpelen : pe.1.length = l.length := hpeout.1.trans hlen3
            have hvam1 : kAt key pe.1 (a - 1) = kAt key p3.1 (a - 1) := by
              rw [kAt, kAt, hpeout.2 (a - 1) (Or.inl (by omega))]
            have hlbpe := leftBound_transport key hpeperm hpeout (by omega)
              (by omega) hlb3
            have hEqBlock : ∀ x, a ≤ x → x < pe.2 →
                kAt key pe.1 x = kAt key pe.1 a := by
              intro x hax hxm
              have h1 := hpeE1 x hax hxm
              have h2 := hlbpe ha0 x hax (by omega)
              omega
            have hreclb : 0 < pe.2 → ∀ x, pe.2 ≤ x → x < b →
                kAt key pe.1 x ≤ kAt key pe.1 (pe.2 - 1) := by
              intro h0 x hx hxb
              have h1 := hpeE2 x hx hxb
              have h2 := hEqBlock (pe.2 - 1) (by omega) (by omega)
              omega
            have hrec := ih pe.1 pe.2 b p1.2 wb wp (by omega) (by omega) hreclb
            refine ⟨eqOutside_trans houtl3 (eqOutside_trans hpeout
              (eqOutside_mono (by omega) (le_refl _) hrec.1)), ?_⟩
            set R := pdqsortLoop (keyLess key) fuel pe.1 pe.2 b p1.2 wb wp
              with hRdef
            have hRperm : R ~ pe.1 := by
              rw [hRdef]
              exact pdqsortLoop_perm (keyLess key) fuel pe.1 pe.2 b p1.2 wb wp
            have hRlen : R.length = pe.1.length := hrec.1.1
            have hRa : kAt key R a = kAt key pe.1 a := by
              rw [kAt, kAt, hrec.1.2 a (Or.inl (by omega))]
            apply equalblock_sorted key R a pe.2 b
            · intro x hax hxm
              have hx : kAt key R x = kAt key pe.1 x := by
                rw [kAt, kAt, hrec.1.2 x (Or.inl (by omega))]
              rw [hx, hRa]
              exact hEqBlock x hax hxm
            · exact hrec.2
            · intro x hxm hxb
              have hstep := kAt_transport key (fun v => v < kAt key pe.1 a)
                (show pe.2 ≤ b from by omega) hRperm hrec.1
                (fun y hay hyb hyl => hpeE2 y hay hyb) x hxm hxb (by omega)
              rw [hRa]
              exact hstep
          · rw [if_neg hguard]
            have hpr := partitionGo_spec key p3.1 a b p2.2.1 hab (by omega)
              hpivot.1 hpivot.2
            set pr := partitionGo (keyLess key) p3.1 a b p2.2.1 with hprdef
            obtain ⟨hprout, hmida, hmidb, hG1, hG2⟩ := hpr
            have hprperm : pr.1 ~ p3.1 := by
              rw [hprdef]
              exact partitionGo_perm (keyLess key) p3.1 a b p2.2.1
            have hprlen : pr.1.length = l.length := hprout.1.trans hlen3
            have hlbpr := leftBound_transport key hprperm hprout (by omega)
              (by omega) hlb3
            have houtlpr : eqOutside a b l pr.1 := eqOutside_trans houtl3 hprout
            by_cases hside : pr.2.1 - a < b - pr.2.1
            · rw [if_pos hside]
              have hrec1 := ih pr.1 a pr.2.1 p1.2 true true (by omega) (by omega)
                (fun h0 x hax hxm => hlbpr h0 x hax (by omega))
              set r1 := pdqsortLoop (keyLess key) fuel pr.1 a pr.2.1 p1.2 true true
                with hr1def
              have hr1perm : r1 ~ pr.1 := by
                rw [hr1def]
                exact pdqsortLoop_perm (keyLess key) fuel pr.1 a pr.2.1 p1.2
                  true true
              have hr1len : r1.length = l.length := hrec1.1.1.trans hprlen
              have hreclb2 : 0 < pr.2.1 + 1 → ∀ x, pr.2.1 + 1 ≤ x → x < b →
                  kAt key r1 x ≤ kAt key r1 (pr.2.1 + 1 - 1) := by
                intro h0 x hx hxb
                have hx1 : kAt key r1 x = kAt key pr.1 x := by
                  rw [kAt, kAt, hrec1.1.2 x (Or.inr (by omega))]
                have hm1 : kAt key r1 (pr.2.1 + 1 - 1) = kAt key pr.1 pr.2.1 := by
                  rw [kAt, kAt, show pr.2.1 + 1 - 1 = pr.2.1 from rfl,
                    hrec1.1.2 pr.2.1 (Or.inr (by omega))]
                rw [hx1, hm1]
                exact hG2 x (by omega) hxb
              have hrec2 := ih r1 (pr.2.1 + 1) b p1.2
                (decide ((b - a) / 8 ≤ min (pr.2.1 - a) (b - pr.2.1))) pr.2.2
                (by omega) (by omega) hreclb2
              have hcomb := pdq_two_sided_left_first key pr.1 r1 _ a pr.2.1 b
                (by omega) hmida hmidb hG1 hG2 hr1perm hrec1.1 hrec1.2
                (pdqsortLoop_perm _ _ _ _ _ _ _ _) hrec2.1 hrec2.2
              exact ⟨eqOutside_trans houtlpr hcomb.1, hcomb.2⟩
            · rw [if_neg hside]
              have hrec1 := ih pr.1 (pr.2.1 + 1) b p1.2 true true (by omega)
                (by omega)
                (fun h0 x hx hxb => by
                  rw [show pr.2.1 + 1 - 1 = pr.2.1 from rfl]
                  exact hG2 x (by omega) hxb)
              set r1 := pdqsortLoop (keyLess key) fuel pr.1 (pr.2.1 + 1) b p1.2
                true true with hr1def
              have hr1perm : r1 ~ pr.1 := by
                rw [hr1def]
                exact pdqsortLoop_perm (keyLess key) fuel pr.1 (pr.2.1 + 1) b
                  p1.2 true true
              have hr1len : r1.length = l.length := hrec1.1.1.trans hprlen
              have hreclb2 : 0 < a → ∀ x, a ≤ x → x < pr.2.1 →
                  kAt key r1 x ≤ kAt key r1 (a - 1) := by
                intro h0 x hax hxm
                have hx1 : kAt key r1 x = kAt key pr.1 x := by
                  rw [kAt, kAt, hrec1.1.2 x (Or.inl (by omega))]
                have hm1 : kAt key r1 (a - 1) = kAt key pr.1 (a - 1) := by
                  rw [kAt, kAt, hrec1.1.2 (a - 1) (Or.inl (by omega))]
                rw [hx1, hm1]
                exact hlbpr h0 x hax (by omega)
              have hrec2 := ih r1 a pr.2.1 p1.2
                (decide ((b - a) / 8 ≤ min (pr.2.1 - a) (b - pr.2.1))) pr.2.2
                (by omega) (by omega) hreclb2
              have hcomb := pdq_two_sided_right_first key pr.1 r1 _ a pr.2.1 b
                (by omega) hmida hmidb hG1 hG2 hr1perm hrec1.1 hrec1.2
                (pdqsortLoop_perm _ _ _ _ _ _ _ _) hrec2.1 hrec2.2
              exact ⟨eqOutside_trans houtlpr hcomb.1, hcomb.2⟩

/-- `sort.Slice` sorts the whole list descending with respect to the key
behind the comparator. -/
theorem pdqsortGo_sorts (key : α → Nat) (l : List α) :
    sortedSeg key (pdqsortGo (keyLess key) l) 0 l.length := by
  rw [pdqsortGo]
  exact (pdqsortLoop_sorts key (l.length + 1) l 0 l.length (bitsLen l.length)
    true true (le_refl _) (by omega) (fun h0 => absurd h0 (by omega))).2

/-- C1 (amended): for every embedded content collection, the built index is
a permutation of the successfully parsed documents and is sorted by
`publishedAt` (`Post.Date`) descending — every earlier entry's date is at
least every later entry's.  (The relative order of equal-dated documents is
*not* the stable one; see the counterexample theorem.) -/
theorem index_sorted_descending (convert : List Nat → List Nat)
    (files : List (List Nat × List Nat)) :
    (loadPosts convert files).Pairwise (fun x y => y.Date ≤ x.Date) ∧
      loadPosts convert files ~
        files.filterMap (fun fc => (parsePost convert fc.1 fc.2).toOption) := by
  have hperm : loadPosts convert files ~
      files.filterMap (fun fc => (parsePost convert fc.1 fc.2).toOption) :=
    sortSlice_perm _
  have hless : lessPost = keyLess Post.Date := rfl
  have hload : loadPosts convert files = pdqsortGo (keyLess Post.Date)
      (files.filterMap (fun fc => (parsePost convert fc.1 fc.2).toOption)) := by
    rw [loadPosts, sortSlice, hless]
  constructor
  · rw [List.pairwise_iff_getElem]
    intro i j hi hj hij
    have hs := pdqsortGo_sorts Post.Date
      (files.filterMap (fun fc => (parsePost convert fc.1 fc.2).toOption))
    have hlen : (loadPosts convert files).length =
        (files.filterMap
          (fun fc => (parsePost convert fc.1 fc.2).toOption)).length :=
      hperm.length_eq
    simp only [hload] at hi hj ⊢
    have h := hs i j (Nat.zero_le _) hij (by rw [hload] at hlen; omega) hj
    rw [kAt_eq_getElem Post.Date _ i hi, kAt_eq_getElem Post.Date _ j hj] at h
    exact h
  · exact hperm
